import Mathlib

/-!
# Verification of the MVRPTW incremental construction search engine

A shallow embedding, in Lean 4, of the core of the MVRPTW repository
(`src/models/actions.py`, `src/models/state.py`, `src/models/vehicle.py`,
`src/utils/cost/cost_utils.py`, `src/utils/search/search_utils.py`,
`src/solvers/selection_solvers/greedy_solvers.py`), together with theorems
about the embedded operations.

Modelling conventions, applied uniformly:

* Python floats are modelled as exact rationals (`ℚ`).  Every numeric value in
  the problem files is an integer converted with `float(...)`, and the program
  only adds, subtracts, compares, takes `max`, and halves these values, so the
  rational semantics is exact; `+inf` time windows are modelled with
  `WithTop ℚ`.
* Python `frozenset`s / `set`s of actions are modelled as lists, with
  membership, union and difference implemented through the Python `__eq__`
  of `Action` (equality of the `(call index, role)` pair, see
  `src/models/actions.py`).  A Python `dict` is modelled as an association
  list (insertion ordered, keyed by the same equality).
* The source mixes several superseded revisions of the same modules
  (`src/models/vehicle.py` reads `action.node` where `actions.py` names the
  field `node_idx`, writes `action.delivery` for `action.call.delivery`,
  invokes the `State.action_sequence` property as a method, and calls the
  tree-clearing routine `delete_children` — found in
  `src/utils/search/search_utils.py` — as a method of `State`).  The embedding
  resolves these cross-revision naming mismatches to the evidently intended
  field or function; the algorithms themselves are translated line by line.
* `Action._hash` is set by `link_call` to `hash((call.idx << 1) | action_idx)`;
  CPython's `hash` is the identity on the machine-range nonnegative integers
  produced here, and `(i << 1) | r` with `r < 2` is `2*i + r`, which is how the
  cached hash is written below.
-/

namespace MVRPTW

/-! ## Actions and calls (`src/models/actions.py`)

A `Call` owns the data of its pickup and delivery legs; a linked `Action` is a
view of one leg of a call (`Role.Pickup` or `Role.Delivery`).  The Python
back-reference `Action._call` is represented by embedding the owning call in
the action view. -/

/-- The window-and-node data of one leg of a call. -/
structure ActionWindow where
  node_idx : Nat
  earliest_time : ℚ
  latest_time : WithTop ℚ
deriving DecidableEq, Repr

/-- A transport request: unique index, size, void cost, and both legs. -/
structure Call where
  idx : Nat
  size : ℚ
  void_cost : ℚ
  pickupW : ActionWindow
  deliveryW : ActionWindow
deriving DecidableEq, Repr

/-- Role tag of an action: `action_idx` 0 is Pickup, 1 is Delivery. -/
inductive Role where
  | Pickup
  | Delivery
deriving DecidableEq, Repr

/-- A linked action: one leg of its owning call. -/
structure Action where
  call : Call
  role : Role
deriving DecidableEq, Repr

/-- Numeric role tag (`action_idx` in the source). -/
def Role.idx : Role → Nat
  | .Pickup => 0
  | .Delivery => 1

/-- The window data of the leg this action executes. -/
def Action.window (a : Action) : ActionWindow :=
  match a.role with
  | .Pickup => a.call.pickupW
  | .Delivery => a.call.deliveryW

/-- `action.node` / `node_idx`. -/
def Action.node (a : Action) : Nat := a.window.node_idx

/-- `action.earliest_time`. -/
def Action.earliest_time (a : Action) : ℚ := a.window.earliest_time

/-- `action.latest_time` (`+inf` is `⊤`). -/
def Action.latest_time (a : Action) : WithTop ℚ := a.window.latest_time

/-- `action.call_idx`. -/
def Action.call_idx (a : Action) : Nat := a.call.idx

/-- `action.action_idx`. -/
def Action.action_idx (a : Action) : Nat := a.role.idx

/-- `action.load_delta`: `+size` for a pickup, `-size` for a delivery. -/
def Action.load_delta (a : Action) : ℚ :=
  match a.role with
  | .Pickup => a.call.size
  | .Delivery => -a.call.size

/-- `call.pickup`, as a linked action. -/
def Call.pickup (c : Call) : Action := ⟨c, .Pickup⟩

/-- `call.delivery`, as a linked action. -/
def Call.delivery (c : Call) : Action := ⟨c, .Delivery⟩

/-- `Action.__eq__`: two linked actions are equal iff they agree on the
cached hash `(call.idx << 1) | action_idx`, i.e. on `(call index, role)`. -/
def pyActionEq (a b : Action) : Bool :=
  (2 * a.call.idx + a.action_idx) == (2 * b.call.idx + b.action_idx)

/-- `Call.__eq__`: calls are equal iff their indices agree. -/
def pyCallEq (c d : Call) : Bool := c.idx == d.idx

/-- Membership of an action in a Python set of actions. -/
def pyMem (a : Action) (l : List Action) : Bool := l.any (fun x => pyActionEq x a)

/-- `frozenset.union` with a singleton: add `a` unless an equal element is
already present. -/
def pySetAdd (a : Action) (l : List Action) : List Action :=
  if pyMem a l then l else l ++ [a]

/-- `frozenset.difference` with a singleton: drop every element equal to `a`. -/
def pySetDiff (a : Action) (l : List Action) : List Action :=
  l.filter (fun x => !pyActionEq x a)

/-! ## Vehicle data bundles (`src/models/vehicle.py`, dataclasses) -/

/-- `VehicleSpecs`: index, capacity, compatible calls (a `frozenset` of
`Call`s, membership by call index). -/
structure VehicleSpecs where
  idx : Nat
  capacity : ℚ
  compatible_calls : List Call

/-- `VehicleCosts`: dense travel-cost matrix (by node pair) and service-cost
matrix (by call index and `action_idx`), modelled as total functions. -/
structure VehicleCosts where
  travel_costs : Nat → Nat → ℚ
  service_costs : Nat → Nat → ℚ

/-- `VehicleTimes`: travel-time and service-time matrices. -/
structure VehicleTimes where
  travel_times : Nat → Nat → ℚ
  service_times : Nat → Nat → ℚ

/-- The immutable part of a `Vehicle`: its specs, costs and times bundles. -/
structure VehicleStatic where
  specs : VehicleSpecs
  costs : VehicleCosts
  times : VehicleTimes

/-- Membership of a call in `specs.compatible_calls` (Python `in`, which uses
`Call.__eq__`). -/
def VehicleStatic.compatible (v : VehicleStatic) (c : Call) : Bool :=
  v.specs.compatible_calls.any (fun d => pyCallEq d c)

/-! ## State payload (`src/models/state.py`)

`StateCore` is the data of one `State` node: node, time, commitments (the
open deliveries), and the optional explicitly-supplied load.  The search-tree
structure over these cores is introduced further below. -/

/-- The payload of a `State`: node, time, commitments, optional load. -/
structure StateCore where
  node : Nat
  time : ℚ
  commitments : List Action
  loadOpt : Option ℚ
deriving DecidableEq, Repr

/-- Sum of the sizes of the calls referenced by a commitment list
(`sum(d.call.size for d in commitments)`). -/
def sumSizes (l : List Action) : ℚ := (l.map (fun a => a.call.size)).sum

/-- `State.load`: the explicitly supplied load if any, otherwise the sum of
the committed calls' sizes (the lazily computed value). -/
def StateCore.load (s : StateCore) : ℚ := s.loadOpt.getD (sumSizes s.commitments)

/-- `arrival_time > latest_time`, where `latest_time` may be `+inf`. -/
def tGT (t : ℚ) (l : WithTop ℚ) : Bool := decide ((t : WithTop ℚ) > l)

/-! ## Feasibility engine (`Vehicle.is_feasible`)

The source sorts the open commitments by ascending `latest_time`, then scans
every candidate next delivery: if dropping its load keeps the load within
capacity and the vehicle can arrive in time, it recurses on the remaining
commitments from the delivery's node at the realized completion time.  Each
recursive call has one fewer commitment, so the recursion is bounded by the
number of commitments, which is used as structural fuel below. -/

/-- `sorted(commitments, key=lambda delivery: delivery.latest_time)` (a stable
sort by deadline). -/
def sortByLatest (l : List Action) : List Action :=
  l.insertionSort (fun a b => a.latest_time ≤ b.latest_time)

/-- All splittings of a list into a chosen element and the remainder, in
order: `candidateSplits pre l` yields, for each `i`, the pair
`(l[i], pre ++ l[:i] ++ l[i+1:])` — the source's
`sorted_commitments[:i] + sorted_commitments[i+1:]`. -/
def candidateSplits : List Action → List Action → List (Action × List Action)
  | _, [] => []
  | pre, d :: rest => (d, pre ++ rest) :: candidateSplits (pre ++ [d]) rest

/-- One candidate step of the feasibility scan: deliver `d` next, leaving
`remaining`.  Returns the recursed-on state, or `none` if capacity or the
delivery's time window rules `d` out (the source's two `continue`s). -/
def feasCandidate (v : VehicleStatic) (s : StateCore) (d : Action)
    (remaining : List Action) : Option StateCore :=
  let new_load := s.load + d.load_delta
  if new_load > v.specs.capacity then none
  else
    let travel_time := v.times.travel_times s.node d.node
    let arrival_time := s.time + travel_time
    if tGT arrival_time d.latest_time then none
    else
      let wait_time := max 0 (d.earliest_time - arrival_time)
      let service_time := v.times.service_times d.call_idx 1
      let new_time := arrival_time + wait_time + service_time
      some ⟨d.node, new_time, remaining, some new_load⟩

/-- The feasibility recursion, with the commitment count as structural fuel
(each recursive call removes exactly one commitment, so
`fuel = commitments.length` realizes the source's recursion exactly). -/
def feasibleGo (v : VehicleStatic) : Nat → StateCore → Bool
  | 0 => fun s => s.commitments.isEmpty
  | fuel + 1 => fun s =>
      match s.commitments with
      | [] => true
      | _ :: _ =>
          (candidateSplits [] (sortByLatest s.commitments)).any (fun p =>
            match feasCandidate v s p.1 p.2 with
            | none => false
            | some s' => feasibleGo v fuel s')

/-- `Vehicle.is_feasible`: can the vehicle still deliver every open
commitment, in some order, within capacity and time windows? -/
def VehicleStatic.is_feasible (v : VehicleStatic) (s : StateCore) : Bool :=
  feasibleGo v s.commitments.length s

/-- The states the feasibility recursion recurses on from `s` (one per
candidate next delivery passing the capacity and time-window tests). -/
def feasChildren (v : VehicleStatic) (s : StateCore) : List StateCore :=
  (candidateSplits [] (sortByLatest s.commitments)).filterMap
    (fun p => feasCandidate v s p.1 p.2)

/-! ## `Vehicle.perform` -/

/-- The candidate state `perform` builds for `action` from `cur` before the
feasibility check: at the action's node, at time
`max(arrival, earliest) + service`, with load `cur.load + load_delta`, and
with the call's delivery added to (pickup) or the action removed from
(delivery) the commitments. -/
def candidateState (v : VehicleStatic) (cur : StateCore) (action : Action) :
    StateCore :=
  let arrival_time := cur.time + v.times.travel_times cur.node action.node
  let new_time := max arrival_time action.earliest_time
      + v.times.service_times action.call_idx action.action_idx
  let new_load := cur.load + action.load_delta
  let new_commitments :=
    match action.role with
    | .Pickup => pySetAdd action.call.delivery cur.commitments
    | .Delivery => pySetDiff action cur.commitments
  ⟨action.node, new_time, new_commitments, some new_load⟩

/-- `Vehicle.perform`: simulate executing `action` from `cur`; `none` when the
action is infeasible (late arrival, incompatible pickup, delivery that is not
an open commitment, or a candidate state the feasibility engine rejects). -/
def VehicleStatic.perform (v : VehicleStatic) (cur : StateCore)
    (action : Action) : Option StateCore :=
  let arrival_time := cur.time + v.times.travel_times cur.node action.node
  if tGT arrival_time action.latest_time then none
  else
    let new_state? : Option StateCore :=
      match action.role with
      | .Pickup =>
          if v.compatible action.call then some (candidateState v cur action)
          else none
      | .Delivery =>
          if pyMem action cur.commitments then some (candidateState v cur action)
          else none
    match new_state? with
    | none => none
    | some new_state =>
        if v.is_feasible new_state then some new_state else none

/-! ## Basic lemmas about the feasibility engine -/

theorem sumSizes_nil : sumSizes [] = 0 := rfl

theorem sumSizes_cons (a : Action) (l : List Action) :
    sumSizes (a :: l) = a.call.size + sumSizes l := by
  simp [sumSizes]

theorem sumSizes_perm {l₁ l₂ : List Action} (h : l₁.Perm l₂) :
    sumSizes l₁ = sumSizes l₂ :=
  (h.map _).sum_eq

theorem sortByLatest_perm (l : List Action) : (sortByLatest l).Perm l :=
  List.perm_insertionSort _ l

theorem tGT_top (t : ℚ) : tGT t ⊤ = false := by
  simp [tGT]

theorem Action.load_delta_of_delivery {a : Action} (h : a.role = Role.Delivery) :
    a.load_delta = -a.call.size := by
  simp [Action.load_delta, h]

/-- Core inductive fact behind C1: with enough fuel, a state whose load is the
sum of its committed (delivery) sizes, whose committed sizes are nonnegative
and fit within capacity, and whose deliveries have unbounded deadlines, is
accepted by the feasibility recursion. -/
theorem feasibleGo_true (v : VehicleStatic) :
    ∀ (fuel : Nat) (s : StateCore),
      s.commitments.length ≤ fuel →
      s.load = sumSizes s.commitments →
      (∀ a ∈ s.commitments, a.role = Role.Delivery) →
      (∀ a ∈ s.commitments, 0 ≤ a.call.size) →
      sumSizes s.commitments ≤ v.specs.capacity →
      (∀ a ∈ s.commitments, a.latest_time = ⊤) →
      feasibleGo v fuel s = true := by
  intro fuel
  induction fuel with
  | zero =>
      intro s hlen _ _ _ _ _
      have hnil : s.commitments = [] :=
        List.eq_nil_of_length_eq_zero (Nat.le_zero.mp hlen)
      simp [feasibleGo, hnil]
  | succ n ih =>
      intro s hlen hload hroles hsizes hcap hinf
      cases hc : s.commitments with
      | nil => simp [feasibleGo, hc]
      | cons c cs =>
          have hperm : (sortByLatest s.commitments).Perm s.commitments :=
            sortByLatest_perm _
          have hmem_of : ∀ a ∈ sortByLatest s.commitments, a ∈ s.commitments :=
            fun a ha => hperm.mem_iff.mp ha
          have hne : sortByLatest s.commitments ≠ [] := by
            intro h0
            have := hperm.length_eq
            rw [h0, hc] at this
            simp at this
          obtain ⟨d, rest, hs⟩ := List.exists_cons_of_ne_nil hne
          have hd_mem : d ∈ s.commitments := hmem_of d (by rw [hs]; exact List.mem_cons_self _ _)
          have hrest_mem : ∀ a ∈ rest, a ∈ s.commitments := by
            intro a ha
            exact hmem_of a (by rw [hs]; exact List.mem_cons_of_mem _ ha)
          have hsum_sorted : sumSizes (sortByLatest s.commitments) = sumSizes s.commitments :=
            sumSizes_perm hperm
          have hsum_rest : sumSizes rest = sumSizes s.commitments - d.call.size := by
            rw [hs, sumSizes_cons] at hsum_sorted
            linarith
      -- the head candidate `(d, rest)` of the scan succeeds
          have hfeas : feasCandidate v s d rest =
              some ⟨d.node,
                s.time + v.times.travel_times s.node d.node
                  + max 0 (d.earliest_time - (s.time + v.times.travel_times s.node d.node))
                  + v.times.service_times d.call_idx 1,
                rest, some (s.load + d.load_delta)⟩ := by
            have hcapd : ¬ (s.load + d.load_delta > v.specs.capacity) := by
              rw [hload, Action.load_delta_of_delivery (hroles d hd_mem)]
              have h1 : 0 ≤ d.call.size := hsizes d hd_mem
              push_neg
              linarith
            rw [feasCandidate]
            simp only [hcapd, if_false, hinf d hd_mem, tGT_top, Bool.false_eq_true]
          have hrec : feasibleGo v n
              ⟨d.node,
                s.time + v.times.travel_times s.node d.node
                  + max 0 (d.earliest_time - (s.time + v.times.travel_times s.node d.node))
                  + v.times.service_times d.call_idx 1,
                rest, some (s.load + d.load_delta)⟩ = true := by
            apply ih
            · show rest.length ≤ n
              have h1 : (d :: rest).length = s.commitments.length := by
                rw [← hs]; exact hperm.length_eq
              rw [hc] at hlen h1
              simp only [List.length_cons] at h1 hlen
              omega
            · show (some (s.load + d.load_delta)).getD (sumSizes rest) = sumSizes rest
              simp only [Option.getD_some]
              rw [hload, Action.load_delta_of_delivery (hroles d hd_mem), hsum_rest]
              ring
            · exact fun a ha => hroles a (hrest_mem a ha)
            · exact fun a ha => hsizes a (hrest_mem a ha)
            · rw [hsum_rest]
              have h1 : 0 ≤ d.call.size := hsizes d hd_mem
              linarith
            · exact fun a ha => hinf a (hrest_mem a ha)
          have hgo : feasibleGo v (n + 1) s =
              (candidateSplits [] (sortByLatest (c :: cs))).any (fun p =>
                match feasCandidate v s p.1 p.2 with
                | none => false
                | some s' => feasibleGo v n s') := by
            simp only [feasibleGo, hc]
          rw [hc] at hs
          rw [hgo, hs]
          rw [candidateSplits]
          simp only [List.nil_append, List.any_cons, Bool.or_eq_true]
          left
          simp only [hfeas]
          exact hrec

/-- C1: for every vehicle, `is_feasible` accepts any state with no
commitments; and — amended — accepts any state whose load is the sum of its
committed calls' sizes when the committed sizes are *nonnegative*, the
capacity is at least that sum, and every committed delivery's latest time is
`+inf`, regardless of the number of commitments or of delivery order.  (The
nonnegativity of the committed sizes is required; see
`c1_counterexample`.) -/
theorem c1_feasibility (v : VehicleStatic) (s : StateCore) :
    (s.commitments = [] → v.is_feasible s = true) ∧
    (s.load = sumSizes s.commitments →
     (∀ a ∈ s.commitments, a.role = Role.Delivery) →
     (∀ a ∈ s.commitments, 0 ≤ a.call.size) →
     sumSizes s.commitments ≤ v.specs.capacity →
     (∀ a ∈ s.commitments, a.latest_time = ⊤) →
     v.is_feasible s = true) := by
  constructor
  · intro h
    simp [VehicleStatic.is_feasible, h, feasibleGo]
  · intro hload hroles hsizes hcap hinf
    exact feasibleGo_true v s.commitments.length s le_rfl hload hroles hsizes hcap hinf

/-- A call of size `-1`: legal data (no validation constrains sizes), which
refutes C1 as stated. -/
def c1CexCall : Call := ⟨0, -1, 0, ⟨0, 0, ⊤⟩, ⟨0, 0, ⊤⟩⟩

/-- A vehicle of capacity `-1` with zero matrices. -/
def c1CexVehicle : VehicleStatic :=
  ⟨⟨0, -1, []⟩, ⟨fun _ _ => 0, fun _ _ => 0⟩, ⟨fun _ _ => 0, fun _ _ => 0⟩⟩

/-- A state owing the delivery of `c1CexCall`, with load `-1` — exactly the
sum of its committed calls' sizes. -/
def c1CexState : StateCore := ⟨0, 0, [c1CexCall.delivery], some (-1)⟩

/-- C1 counterexample: a state satisfying every hypothesis of C1 as stated —
load equal to the sum of the committed sizes, capacity at least that sum, all
committed deliveries with `latest_time = +inf` — on which `is_feasible`
returns `false` (delivering the size `-1` call would *raise* the load above
the capacity).  C1 as stated is therefore false; nonnegative sizes are
needed. -/
theorem c1_counterexample :
    c1CexState.load = sumSizes c1CexState.commitments ∧
    (∀ a ∈ c1CexState.commitments, a.role = Role.Delivery) ∧
    sumSizes c1CexState.commitments ≤ c1CexVehicle.specs.capacity ∧
    (∀ a ∈ c1CexState.commitments, a.latest_time = ⊤) ∧
    c1CexVehicle.is_feasible c1CexState = false := by
  refine ⟨?_, ?_, ?_, ?_, ?_⟩
  · norm_num [c1CexState, StateCore.load, sumSizes, c1CexCall, Call.delivery]
  · intro a ha
    simp only [c1CexState, List.mem_singleton] at ha
    subst ha
    rfl
  · norm_num [c1CexState, sumSizes, c1CexCall, Call.delivery, c1CexVehicle]
  · intro a ha
    simp only [c1CexState, List.mem_singleton] at ha
    subst ha
    rfl
  · norm_num [VehicleStatic.is_feasible, c1CexState, feasibleGo, sortByLatest,
      List.insertionSort, candidateSplits, feasCandidate, StateCore.load,
      c1CexCall, c1CexVehicle, Call.delivery, Action.load_delta, sumSizes]

/-- Two nonnegative-size calls for the C1 witness. -/
def c1WitCallA : Call := ⟨0, 2, 0, ⟨0, 0, ⊤⟩, ⟨1, 0, ⊤⟩⟩

/-- Second witness call. -/
def c1WitCallB : Call := ⟨1, 3, 0, ⟨0, 0, ⊤⟩, ⟨2, 0, ⊤⟩⟩

/-- Witness vehicle: capacity 5. -/
def c1WitVehicle : VehicleStatic :=
  ⟨⟨0, 5, [c1WitCallA, c1WitCallB]⟩, ⟨fun _ _ => 1, fun _ _ => 1⟩,
    ⟨fun _ _ => 1, fun _ _ => 1⟩⟩

/-- Witness state: two open deliveries, lazily derived load. -/
def c1WitState : StateCore := ⟨0, 0, [c1WitCallA.delivery, c1WitCallB.delivery], none⟩

/-- C1 witness: the (amended) theorem applied at a concrete two-commitment
state; all hypotheses hold by computation, and feasibility follows. -/
theorem c1_witness :
    c1WitState.load = sumSizes c1WitState.commitments ∧
    sumSizes c1WitState.commitments ≤ c1WitVehicle.specs.capacity ∧
    c1WitVehicle.is_feasible c1WitState = true := by
  refine ⟨by norm_num [c1WitState, StateCore.load], by
    norm_num [c1WitState, sumSizes, c1WitCallA, c1WitCallB, Call.delivery,
      c1WitVehicle], ?_⟩
  apply (c1_feasibility c1WitVehicle c1WitState).2
  · norm_num [c1WitState, StateCore.load]
  · intro a ha
    simp only [c1WitState, List.mem_cons, List.mem_singleton] at ha
    rcases ha with h | h | h
    · subst h; rfl
    · subst h; rfl
    · cases h
  · intro a ha
    simp only [c1WitState, List.mem_cons, List.mem_singleton] at ha
    rcases ha with h | h | h
    · subst h; norm_num [c1WitCallA, Call.delivery]
    · subst h; norm_num [c1WitCallB, Call.delivery]
    · cases h
  · norm_num [c1WitState, sumSizes, c1WitCallA, c1WitCallB, Call.delivery,
      c1WitVehicle]
  · intro a ha
    simp only [c1WitState, List.mem_cons, List.mem_singleton] at ha
    rcases ha with h | h | h
    · subst h; rfl
    · subst h; rfl
    · cases h

/-! ## C2: characterization of `Vehicle.perform` -/

/-- C2: `perform(action)` returns `none` (an expected outcome, not an error)
exactly when the arrival time exceeds the action's latest time, or the action
is a pickup of an incompatible call, or a delivery that is not an open
commitment, or the candidate resulting state fails the feasibility check;
otherwise it returns the state at the action's node with time
`max(arrival, earliest) + service`, load `cur.load + load_delta`, and the
commitments with the call's delivery added (pickup) or the action removed
(delivery). -/
theorem c2_perform_characterization (v : VehicleStatic) (cur : StateCore)
    (a : Action) :
    (v.perform cur a = none ↔
      (tGT (cur.time + v.times.travel_times cur.node a.node) a.latest_time = true
       ∨ (a.role = Role.Pickup ∧ v.compatible a.call = false)
       ∨ (a.role = Role.Delivery ∧ pyMem a cur.commitments = false)
       ∨ v.is_feasible (candidateState v cur a) = false)) ∧
    (∀ s', v.perform cur a = some s' →
      s'.node = a.node ∧
      s'.time = max (cur.time + v.times.travel_times cur.node a.node)
          a.earliest_time + v.times.service_times a.call_idx a.action_idx ∧
      s'.loadOpt = some (cur.load + a.load_delta) ∧
      s'.commitments = (match a.role with
        | Role.Pickup => pySetAdd a.call.delivery cur.commitments
        | Role.Delivery => pySetDiff a cur.commitments)) := by
  have hfields :
      (candidateState v cur a).node = a.node ∧
      (candidateState v cur a).time =
        max (cur.time + v.times.travel_times cur.node a.node) a.earliest_time
          + v.times.service_times a.call_idx a.action_idx ∧
      (candidateState v cur a).loadOpt = some (cur.load + a.load_delta) ∧
      (candidateState v cur a).commitments = (match a.role with
        | Role.Pickup => pySetAdd a.call.delivery cur.commitments
        | Role.Delivery => pySetDiff a cur.commitments) := by
    refine ⟨rfl, rfl, rfl, ?_⟩
    cases hrole : a.role with
    | Pickup => simp [candidateState, hrole]
    | Delivery => simp [candidateState, hrole]
  have hsome : ∀ s', v.perform cur a = some s' → s' = candidateState v cur a := by
    intro s' h
    unfold VehicleStatic.perform at h
    cases htime : tGT (cur.time + v.times.travel_times cur.node a.node)
        a.latest_time with
    | true => simp [htime] at h
    | false =>
        simp only [htime, Bool.false_eq_true, if_false] at h
        cases hrole : a.role with
        | Pickup =>
            cases hcomp : v.compatible a.call with
            | false => simp [hrole, hcomp] at h
            | true =>
                simp only [hrole, hcomp, if_true] at h
                cases hfeas : v.is_feasible (candidateState v cur a) with
                | false => simp [hfeas] at h
                | true =>
                    simp only [hfeas, if_true, Option.some.injEq] at h
                    exact h.symm
        | Delivery =>
            cases hmem : pyMem a cur.commitments with
            | false => simp [hrole, hmem] at h
            | true =>
                simp only [hrole, hmem, if_true] at h
                cases hfeas : v.is_feasible (candidateState v cur a) with
                | false => simp [hfeas] at h
                | true =>
                    simp only [hfeas, if_true, Option.some.injEq] at h
                    exact h.symm
  constructor
  · unfold VehicleStatic.perform
    cases htime : tGT (cur.time + v.times.travel_times cur.node a.node)
        a.latest_time with
    | true => simp [htime]
    | false =>
        simp only [htime, Bool.false_eq_true, if_false, false_or]
        cases hrole : a.role with
        | Pickup =>
            cases hcomp : v.compatible a.call with
            | false => simp [hrole, hcomp]
            | true =>
                cases hfeas : v.is_feasible (candidateState v cur a) with
                | false => simp [hrole, hcomp, hfeas]
                | true => simp [hrole, hcomp, hfeas]
        | Delivery =>
            cases hmem : pyMem a cur.commitments with
            | false => simp [hrole, hmem]
            | true =>
                cases hfeas : v.is_feasible (candidateState v cur a) with
                | false => simp [hrole, hmem, hfeas]
                | true => simp [hrole, hmem, hfeas]
  · intro s' h
    rw [hsome s' h]
    exact hfields

/-- Witness call for C2: size 1, pickup at node 1 in `[0, 10]`, delivery at
node 2 in `[0, +inf]`. -/
def c2WitCall : Call := ⟨0, 1, 4, ⟨1, 0, ((10 : ℚ) : WithTop ℚ)⟩, ⟨2, 0, ⊤⟩⟩

/-- Witness vehicle for C2: capacity 5, all travel/service times 1. -/
def c2WitVehicle : VehicleStatic :=
  ⟨⟨0, 5, [c2WitCall]⟩, ⟨fun _ _ => 1, fun _ _ => 1⟩,
    ⟨fun _ _ => 1, fun _ _ => 1⟩⟩

/-- Witness current state for C2: at node 0, time 0, nothing committed. -/
def c2WitState : StateCore := ⟨0, 0, [], some 0⟩

/-- The state `perform` produces in the C2 witness. -/
def c2WitResult : StateCore := ⟨1, 2, [c2WitCall.delivery], some 1⟩

/-- C2 witness: at a concrete feasible pickup, `perform` succeeds and the
characterization theorem yields the claimed node and load of the result. -/
theorem c2_witness :
    c2WitVehicle.perform c2WitState (Call.pickup c2WitCall) = some c2WitResult ∧
    c2WitResult.node = (Call.pickup c2WitCall).node ∧
    c2WitResult.loadOpt =
      some (c2WitState.load + (Call.pickup c2WitCall).load_delta) := by
  have hp : c2WitVehicle.perform c2WitState (Call.pickup c2WitCall) =
      some c2WitResult := by
    norm_num [VehicleStatic.perform, candidateState, VehicleStatic.is_feasible,
      feasibleGo, sortByLatest, List.insertionSort, candidateSplits,
      feasCandidate, pySetAdd, pyMem, pyActionEq, tGT, StateCore.load,
      VehicleStatic.compatible, pyCallEq, c2WitCall, c2WitVehicle, c2WitState,
      c2WitResult, Call.pickup, Call.delivery, Action.node, Action.window,
      Action.earliest_time, Action.latest_time, Action.load_delta,
      Action.call_idx, Action.action_idx, Role.idx, sumSizes,
      WithTop.coe_lt_coe]
  have h2 := (c2_perform_characterization c2WitVehicle c2WitState
      (Call.pickup c2WitCall)).2 c2WitResult hp
  exact ⟨hp, h2.1, h2.2.2.1⟩

/-! ## C3: the load/commitments invariant

`State.load` is either supplied explicitly (by `perform` and by the
feasibility recursion) or derived lazily as the sum of the committed sizes.
The reachable states are generated by: initial-state construction (empty
commitments, derived load), `perform` applied to a linked action of one of
the problem's calls (`expand` registers exactly such `perform` results, and
`select`/`remove`/`reset` never build a new state payload), and the
intermediate states of the feasibility recursion. -/

/-- Python-set well-formedness of a commitment list: no two elements are
`Action.__eq__`-equal. -/
def pyNodup (l : List Action) : Prop :=
  l.Pairwise (fun a b => pyActionEq a b = false)

theorem Role.idx_lt_two (r : Role) : r.idx < 2 := by
  cases r <;> simp [Role.idx]

theorem Role.idx_inj {r s : Role} (h : r.idx = s.idx) : r = s := by
  cases r <;> cases s <;> simp_all [Role.idx]

theorem pyActionEq_true_iff {a b : Action} :
    pyActionEq a b = true ↔ (a.call.idx = b.call.idx ∧ a.role = b.role) := by
  unfold pyActionEq
  rw [beq_iff_eq]
  have ha := Role.idx_lt_two a.role
  have hb := Role.idx_lt_two b.role
  constructor
  · intro h
    unfold Action.action_idx at h
    have h1 : a.call.idx = b.call.idx ∧ a.role.idx = b.role.idx := by omega
    exact ⟨h1.1, Role.idx_inj h1.2⟩
  · rintro ⟨h1, h2⟩
    unfold Action.action_idx
    rw [h1, h2]

theorem pyActionEq_symm (a b : Action) : pyActionEq a b = pyActionEq b a := by
  unfold pyActionEq
  by_cases h : 2 * a.call.idx + a.action_idx = 2 * b.call.idx + b.action_idx
  · rw [h]
  · rw [beq_eq_false_iff_ne.mpr h, beq_eq_false_iff_ne.mpr (Ne.symm h)]

theorem pyMem_eq_false_iff {a : Action} {l : List Action} :
    pyMem a l = false ↔ ∀ x ∈ l, pyActionEq x a = false := by
  unfold pyMem
  simp [List.any_eq_false]

theorem pyMem_eq_true_iff {a : Action} {l : List Action} :
    pyMem a l = true ↔ ∃ x ∈ l, pyActionEq x a = true := by
  unfold pyMem
  simp [List.any_eq_true]

theorem sumSizes_append (l₁ l₂ : List Action) :
    sumSizes (l₁ ++ l₂) = sumSizes l₁ + sumSizes l₂ := by
  simp [sumSizes]

/-- If every element `__eq__`-equal to `a` in `l` is `a` itself, `l` has no
`__eq__`-duplicates, and `a` is a member, then `l` is `a` together with
`l.difference({a})`. -/
theorem pySetDiff_perm {a : Action} :
    ∀ {l : List Action}, pyMem a l = true → pyNodup l →
      (∀ x ∈ l, pyActionEq x a = true → x = a) →
      l.Perm (a :: pySetDiff a l) := by
  intro l
  induction l with
  | nil => intro hmem _ _; simp [pyMem] at hmem
  | cons b t ih =>
      intro hmem hnd hall
      by_cases hb : pyActionEq b a = true
      · have hba : b = a := hall b (List.mem_cons_self _ _) hb
        subst hba
        have ht : pySetDiff b t = t := by
          apply List.filter_eq_self.mpr
          intro x hx
          have h1 : pyActionEq b x = false := (List.pairwise_cons.mp hnd).1 x hx
          rw [Bool.not_eq_eq_eq_not, Bool.not_true, pyActionEq_symm]
          exact h1
        have hdrop : pySetDiff b (b :: t) = pySetDiff b t := by
          unfold pySetDiff
          rw [List.filter_cons]
          simp [hb]
        rw [hdrop, ht]
      · have hb' : pyActionEq b a = false := by
          cases hh : pyActionEq b a
          · rfl
          · exact absurd hh hb
        have hmem' : pyMem a t = true := by
          rcases pyMem_eq_true_iff.mp hmem with ⟨x, hx, hxeq⟩
          rcases List.mem_cons.mp hx with h1 | h1
          · subst h1; exact absurd hxeq hb
          · exact pyMem_eq_true_iff.mpr ⟨x, h1, hxeq⟩
        have hperm := ih hmem' (List.pairwise_cons.mp hnd).2
          (fun x hx hxa => hall x (List.mem_cons_of_mem _ hx) hxa)
        have hkeep : pySetDiff a (b :: t) = b :: pySetDiff a t := by
          unfold pySetDiff
          rw [List.filter_cons]
          simp [hb']
        rw [hkeep]
        exact (hperm.cons b).trans (List.Perm.swap a b _)

/-- Every split produced by `candidateSplits` is the input up to
permutation: the chosen element consed on the remainder. -/
theorem candidateSplits_perm :
    ∀ (l pre : List Action) (p : Action × List Action),
      p ∈ candidateSplits pre l → (p.1 :: p.2).Perm (pre ++ l) := by
  intro l
  induction l with
  | nil => intro pre p h; simp [candidateSplits] at h
  | cons d rest ih =>
      intro pre p h
      rw [candidateSplits] at h
      rcases List.mem_cons.mp h with h1 | h2
      · subst h1
        exact List.perm_middle.symm
      · have := ih (pre ++ [d]) p h2
        rwa [List.append_assoc, List.singleton_append] at this

/-- A successful `feasCandidate` records the remainder as commitments and the
explicit load `s.load + d.load_delta`. -/
theorem feasCandidate_some {v : VehicleStatic} {s : StateCore} {d : Action}
    {rem : List Action} {s' : StateCore}
    (h : feasCandidate v s d rem = some s') :
    s'.commitments = rem ∧ s'.loadOpt = some (s.load + d.load_delta) := by
  unfold feasCandidate at h
  by_cases h1 : s.load + d.load_delta > v.specs.capacity
  · simp [h1] at h
  · simp only [h1, if_false] at h
    by_cases h2 : tGT (s.time + v.times.travel_times s.node d.node)
        d.latest_time = true
    · simp [h2] at h
    · simp only [Bool.not_eq_true] at h2
      simp only [h2, Bool.false_eq_true, if_false, Option.some.injEq] at h
      rw [← h]
      exact ⟨rfl, rfl⟩

/-- A successful `perform` returns exactly the candidate state. -/
theorem perform_some_eq {v : VehicleStatic} {cur : StateCore} {a : Action}
    {s' : StateCore} (h : v.perform cur a = some s') :
    s' = candidateState v cur a := by
  unfold VehicleStatic.perform at h
  by_cases htime : tGT (cur.time + v.times.travel_times cur.node a.node)
      a.latest_time = true
  · simp [htime] at h
  · simp only [Bool.not_eq_true] at htime
    simp only [htime, Bool.false_eq_true, if_false] at h
    cases hrole : a.role with
    | Pickup =>
        rw [hrole] at h
        by_cases hcomp : v.compatible a.call = true
        · simp only [hcomp, if_true] at h
          by_cases hfeas : v.is_feasible (candidateState v cur a) = true
          · simp only [hfeas, if_true, Option.some.injEq] at h
            exact h.symm
          · simp only [Bool.not_eq_true] at hfeas
            simp [hfeas] at h
        · simp only [Bool.not_eq_true] at hcomp
          simp [hcomp] at h
    | Delivery =>
        rw [hrole] at h
        by_cases hmem : pyMem a cur.commitments = true
        · simp only [hmem, if_true] at h
          by_cases hfeas : v.is_feasible (candidateState v cur a) = true
          · simp only [hfeas, if_true, Option.some.injEq] at h
            exact h.symm
          · simp only [Bool.not_eq_true] at hfeas
            simp [hfeas] at h
        · simp only [Bool.not_eq_true] at hmem
          simp [hmem] at h

/-- A successful `perform` of a delivery requires the delivery to be an open
commitment. -/
theorem perform_some_delivery_mem {v : VehicleStatic} {cur : StateCore}
    {a : Action} {s' : StateCore} (h : v.perform cur a = some s')
    (hrole : a.role = Role.Delivery) : pyMem a cur.commitments = true := by
  unfold VehicleStatic.perform at h
  by_cases htime : tGT (cur.time + v.times.travel_times cur.node a.node)
      a.latest_time = true
  · simp [htime] at h
  · simp only [Bool.not_eq_true] at htime
    simp only [htime, Bool.false_eq_true, if_false, hrole] at h
    by_cases hmem : pyMem a cur.commitments = true
    · exact hmem
    · simp only [Bool.not_eq_true] at hmem
      simp [hmem] at h

/-- C3's reachability relation, as the claim states it: initial states,
arbitrary successful `perform` steps with linked actions of the problem's
calls (which is what `expand` registers; `select`, `remove` and `reset` do
not create state payloads), and the feasibility recursion's states. -/
inductive Reach0 (v : VehicleStatic) (calls : List Call) : StateCore → Prop where
  | init (node : Nat) (time : ℚ) : Reach0 v calls ⟨node, time, [], none⟩
  | perform_step {s s' : StateCore} {c : Call} {r : Role} :
      Reach0 v calls s → c ∈ calls →
      v.perform s ⟨c, r⟩ = some s' → Reach0 v calls s'
  | feas_step {s s' : StateCore} :
      Reach0 v calls s → s' ∈ feasChildren v s → Reach0 v calls s'

/-- The amended reachability relation: as `Reach0`, but a pickup is only
performed when its call's delivery is not already committed — which is how
the construction loop uses `perform`, since a committed call is removed from
the unanswered set when its pickup is selected. -/
inductive Reach (v : VehicleStatic) (calls : List Call) : StateCore → Prop where
  | init (node : Nat) (time : ℚ) : Reach v calls ⟨node, time, [], none⟩
  | perform_step {s s' : StateCore} {c : Call} {r : Role} :
      Reach v calls s → c ∈ calls →
      (r = Role.Pickup → pyMem c.delivery s.commitments = false) →
      v.perform s ⟨c, r⟩ = some s' → Reach v calls s'
  | feas_step {s s' : StateCore} :
      Reach v calls s → s' ∈ feasChildren v s → Reach v calls s'

/-- The full invariant carried through the reachability induction: the load
equals the sum of the committed sizes, the commitments are a well-formed
Python set, and every commitment is a delivery of one of the problem's
calls. -/
def CommitOK (calls : List Call) (s : StateCore) : Prop :=
  s.load = sumSizes s.commitments ∧
  pyNodup s.commitments ∧
  ∀ d ∈ s.commitments, d.role = Role.Delivery ∧ d.call ∈ calls

theorem reach_commitOK {v : VehicleStatic} {calls : List Call}
    (hinj : ∀ c ∈ calls, ∀ d ∈ calls, c.idx = d.idx → c = d)
    {s : StateCore} (h : Reach v calls s) : CommitOK calls s := by
  induction h with
  | init node time =>
      refine ⟨rfl, List.Pairwise.nil, ?_⟩
      intro d hd
      simp at hd
  | @perform_step s s' c r _ hc hfresh hperf ih =>
      obtain ⟨ihload, ihnd, ihmem⟩ := ih
      have hs' := perform_some_eq hperf
      cases r with
      | Pickup =>
          have hfresh' : pyMem c.delivery s.commitments = false := hfresh rfl
          have hcomm : s'.commitments = s.commitments ++ [c.delivery] := by
            rw [hs']
            show pySetAdd _ _ = _
            unfold pySetAdd
            have : (Action.mk c Role.Pickup).call.delivery = c.delivery := rfl
            rw [this, hfresh']
            simp
          have hload : s'.loadOpt = some (s.load + c.size) := by
            rw [hs']
            rfl
          refine ⟨?_, ?_, ?_⟩
          · show s'.loadOpt.getD _ = _
            rw [hload, hcomm, Option.getD_some, sumSizes_append, ihload]
            simp [sumSizes, Call.delivery]
          · rw [hcomm]
            unfold pyNodup
            rw [List.pairwise_append]
            refine ⟨ihnd, List.pairwise_singleton _ _, ?_⟩
            intro x hx y hy
            rw [List.mem_singleton] at hy
            subst hy
            exact pyMem_eq_false_iff.mp hfresh' x hx
          · intro d hd
            rw [hcomm] at hd
            rcases List.mem_append.mp hd with h1 | h1
            · exact ihmem d h1
            · rw [List.mem_singleton] at h1
              subst h1
              exact ⟨rfl, hc⟩
      | Delivery =>
          have hmem : pyMem ⟨c, Role.Delivery⟩ s.commitments = true :=
            perform_some_delivery_mem hperf rfl
          have hall : ∀ x ∈ s.commitments,
              pyActionEq x ⟨c, Role.Delivery⟩ = true → x = ⟨c, Role.Delivery⟩ := by
            intro x hx hxeq
            obtain ⟨hidx, hrole⟩ := pyActionEq_true_iff.mp hxeq
            have hxcall : x.call ∈ calls := (ihmem x hx).2
            have : x.call = c := hinj x.call hxcall c hc hidx
            cases x with
            | mk xc xr => simp_all
          have hperm := pySetDiff_perm hmem ihnd hall
          have hcomm : s'.commitments = pySetDiff ⟨c, Role.Delivery⟩ s.commitments := by
            rw [hs']
            rfl
          have hload : s'.loadOpt = some (s.load - c.size) := by
            rw [hs']
            show some (s.load + Action.load_delta _) = _
            rw [Action.load_delta_of_delivery rfl]
            exact congrArg some (by ring)
          have hsum : sumSizes s.commitments =
              c.size + sumSizes (pySetDiff ⟨c, Role.Delivery⟩ s.commitments) := by
            have := sumSizes_perm hperm
            rw [this, sumSizes_cons]
          refine ⟨?_, ?_, ?_⟩
          · show s'.loadOpt.getD _ = _
            rw [hload, hcomm, Option.getD_some, ihload, hsum]
            ring
          · rw [hcomm]
            exact List.Pairwise.sublist (List.filter_sublist _) ihnd
          · intro d hd
            rw [hcomm] at hd
            exact ihmem d (List.mem_of_mem_filter hd)
  | @feas_step s s' _ hchild ih =>
      obtain ⟨ihload, ihnd, ihmem⟩ := ih
      unfold feasChildren at hchild
      rw [List.mem_filterMap] at hchild
      obtain ⟨p, hp, hcand⟩ := hchild
      obtain ⟨hcomm, hload⟩ := feasCandidate_some hcand
      have hperm : (p.1 :: p.2).Perm s.commitments := by
        have h1 := candidateSplits_perm (sortByLatest s.commitments) [] p hp
        rw [List.nil_append] at h1
        exact h1.trans (sortByLatest_perm _)
      have hp1 : p.1 ∈ s.commitments := hperm.mem_iff.mp (List.mem_cons_self _ _)
      have hp2 : ∀ x ∈ p.2, x ∈ s.commitments := by
        intro x hx
        exact hperm.mem_iff.mp (List.mem_cons_of_mem _ hx)
      refine ⟨?_, ?_, fun d hd => ihmem d (hp2 d (hcomm ▸ hd))⟩
      · show s'.loadOpt.getD _ = _
        rw [hload, hcomm, Option.getD_some, ihload,
          Action.load_delta_of_delivery (ihmem p.1 hp1).1]
        have := sumSizes_perm hperm
        rw [sumSizes_cons] at this
        linarith
      · rw [hcomm]
        have : pyNodup (p.1 :: p.2) := by
          unfold pyNodup at ihnd ⊢
          rw [List.Perm.pairwise_iff ?_ hperm]
          · exact ihnd
          · intro a b hab
            rw [pyActionEq_symm]
            exact hab
        exact (List.pairwise_cons.mp this).2

/-- C3 (amended): every state reachable through the public operations —
initial construction, `perform`/`expand` steps over the problem's linked
actions (with distinct call indices), `select`, `remove`, `reset`, and the
feasibility recursion — has load equal to the sum of its committed calls'
sizes, provided a pickup is never performed while its call's delivery is
already committed (which the construction loop guarantees).  Without that
proviso the invariant fails; see `c3_counterexample`. -/
theorem c3_load_invariant (v : VehicleStatic) (calls : List Call)
    (hinj : ∀ c ∈ calls, ∀ d ∈ calls, c.idx = d.idx → c = d)
    (s : StateCore) (h : Reach v calls s) :
    s.load = sumSizes s.commitments :=
  (reach_commitOK hinj h).1

/-- Call for the C3 counterexample. -/
def c3CexCall : Call := ⟨0, 5, 0, ⟨0, 0, ⊤⟩, ⟨0, 0, ⊤⟩⟩

/-- Vehicle for the C3 counterexample: capacity 10, zero matrices. -/
def c3CexVehicle : VehicleStatic :=
  ⟨⟨0, 10, [c3CexCall]⟩, ⟨fun _ _ => 0, fun _ _ => 0⟩,
    ⟨fun _ _ => 0, fun _ _ => 0⟩⟩

/-- C3 counterexample: performing the *same* pickup twice — each step a
public `perform` on a linked action of the problem — yields a state with
load 10 but a single commitment of size 5: `perform` never checks whether a
pickup's call is already committed, and the `frozenset` union silently
deduplicates while the load is incremented again. -/
theorem c3_counterexample :
    ¬ (∀ s, Reach0 c3CexVehicle [c3CexCall] s →
        s.load = sumSizes s.commitments) := by
  intro hall
  have h0 : Reach0 c3CexVehicle [c3CexCall] ⟨0, 0, [], none⟩ := .init 0 0
  have hp1 : c3CexVehicle.perform ⟨0, 0, [], none⟩ (Call.pickup c3CexCall) =
      some ⟨0, 0, [c3CexCall.delivery], some 5⟩ := by
    norm_num [VehicleStatic.perform, candidateState, VehicleStatic.is_feasible,
      feasibleGo, sortByLatest, List.insertionSort, candidateSplits,
      feasCandidate, pySetAdd, pyMem, pyActionEq, tGT, StateCore.load,
      VehicleStatic.compatible, pyCallEq, c3CexCall, c3CexVehicle,
      Call.pickup, Call.delivery, Action.node, Action.window,
      Action.earliest_time, Action.latest_time, Action.load_delta,
      Action.call_idx, Action.action_idx, Role.idx, sumSizes]
  have h1 : Reach0 c3CexVehicle [c3CexCall] ⟨0, 0, [c3CexCall.delivery], some 5⟩ :=
    .perform_step h0 (List.mem_singleton.mpr rfl) hp1
  have hp2 : c3CexVehicle.perform ⟨0, 0, [c3CexCall.delivery], some 5⟩
      (Call.pickup c3CexCall) =
      some ⟨0, 0, [c3CexCall.delivery], some 10⟩ := by
    norm_num [VehicleStatic.perform, candidateState, VehicleStatic.is_feasible,
      feasibleGo, sortByLatest, List.insertionSort, candidateSplits,
      feasCandidate, pySetAdd, pyMem, pyActionEq, tGT, StateCore.load,
      VehicleStatic.compatible, pyCallEq, c3CexCall, c3CexVehicle,
      Call.pickup, Call.delivery, Action.node, Action.window,
      Action.earliest_time, Action.latest_time, Action.load_delta,
      Action.call_idx, Action.action_idx, Role.idx, sumSizes]
  have h2 : Reach0 c3CexVehicle [c3CexCall] ⟨0, 0, [c3CexCall.delivery], some 10⟩ :=
    .perform_step h1 (List.mem_singleton.mpr rfl) hp2
  have := hall _ h2
  norm_num [StateCore.load, sumSizes, c3CexCall, Call.delivery] at this

/-- Call for the C3 witness. -/
def c3WitCall : Call := ⟨0, 1, 4, ⟨1, 0, ((10 : ℚ) : WithTop ℚ)⟩, ⟨2, 0, ⊤⟩⟩

/-- Vehicle for the C3 witness. -/
def c3WitVehicle : VehicleStatic :=
  ⟨⟨0, 5, [c3WitCall]⟩, ⟨fun _ _ => 1, fun _ _ => 1⟩,
    ⟨fun _ _ => 1, fun _ _ => 1⟩⟩

/-- C3 witness: the amended invariant theorem applied to the concrete state
reached by performing one fresh pickup from an initial state. -/
theorem c3_witness :
    Reach c3WitVehicle [c3WitCall] ⟨1, 2, [c3WitCall.delivery], some 1⟩ ∧
    (StateCore.load ⟨1, 2, [c3WitCall.delivery], some 1⟩ =
      sumSizes [c3WitCall.delivery]) := by
  have hp : c3WitVehicle.perform ⟨0, 0, [], none⟩ (Call.pickup c3WitCall) =
      some ⟨1, 2, [c3WitCall.delivery], some 1⟩ := by
    norm_num [VehicleStatic.perform, candidateState, VehicleStatic.is_feasible,
      feasibleGo, sortByLatest, List.insertionSort, candidateSplits,
      feasCandidate, pySetAdd, pyMem, pyActionEq, tGT, StateCore.load,
      VehicleStatic.compatible, pyCallEq, c3WitCall, c3WitVehicle,
      Call.pickup, Call.delivery, Action.node, Action.window,
      Action.earliest_time, Action.latest_time, Action.load_delta,
      Action.call_idx, Action.action_idx, Role.idx, sumSizes,
      WithTop.coe_lt_coe]
  have hr : Reach c3WitVehicle [c3WitCall] ⟨1, 2, [c3WitCall.delivery], some 1⟩ :=
    .perform_step (.init 0 0) (List.mem_singleton.mpr rfl) (fun _ => rfl) hp
  refine ⟨hr, ?_⟩
  exact c3_load_invariant c3WitVehicle [c3WitCall]
    (by
      intro c hc d hd _
      rw [List.mem_singleton] at hc hd
      rw [hc, hd])
    _ hr

/-! ## The state tree (`src/models/state.py`)

A `State` owns a `dict` from `Action` to child `State` (`next_states`), plus
the selection pointers `selected_action` / `next_state` set by `select`.  In
Python, `next_state` aliases `next_states[selected_action]`; the pure model
keeps the selected pair `(selected_action, next_state)` and re-reads the
child map wherever the source mutates the shared child in place.  The
`_frontier` cache is not modelled: no solver (and no claim) observes it. -/

/-- A node of a vehicle's search tree: the state payload, the selection
pointers (`selected_action`, `next_state`), and `next_states`. -/
inductive STree where
  | mk : StateCore → Option (Action × STree) → List (Action × STree) → STree

/-- The state payload of a tree node. -/
def STree.core : STree → StateCore
  | .mk c _ _ => c

/-- The selection pointers of a tree node. -/
def STree.sel : STree → Option (Action × STree)
  | .mk _ s _ => s

/-- The child map of a tree node. -/
def STree.children : STree → List (Action × STree)
  | .mk _ _ c => c

/-- Python `dict` lookup keyed by `Action.__eq__`. -/
def pyLookup (a : Action) : List (Action × STree) → Option STree
  | [] => none
  | (k, t) :: rest => if pyActionEq a k then some t else pyLookup a rest

/-- Python `dict` value update at an existing key (`d[k] = v` keeps the key's
position). -/
def pyDictSet (a : Action) (t' : STree) : List (Action × STree) →
    List (Action × STree)
  | [] => []
  | (k, u) :: rest =>
      if pyActionEq a k then (k, t') :: rest else (k, u) :: pyDictSet a t' rest

mutual
/-- `State.remove(call)` (comparison `action.call == call` is by call index):
delete every branch of the call from `next_states`, recurse into the
remaining children.  The selection pointers are *not* cleared by the source;
`next_state` aliases the child-map entry, so it sees the pruned child when
its action survives and keeps the detached subtree otherwise. -/
def State.remove (cidx : Nat) : STree → STree
  | .mk core sel children =>
      let children' := removeForest cidx children
      let sel' := match sel with
        | none => none
        | some (a, t) => some (a, (pyLookup a children').getD t)
      .mk core sel' children'

/-- `remove` over the entries of a child map. -/
def removeForest (cidx : Nat) : List (Action × STree) → List (Action × STree)
  | [] => []
  | (a, t) :: rest =>
      if a.call.idx == cidx then removeForest cidx rest
      else (a, State.remove cidx t) :: removeForest cidx rest
end

mutual
/-- Every action reachable through the child maps of a subtree. -/
def childActions : STree → List Action
  | .mk _ _ children => forestActions children

/-- Actions reachable through the entries of a child map. -/
def forestActions : List (Action × STree) → List Action
  | [] => []
  | (a, t) :: rest => a :: (childActions t ++ forestActions rest)
end

mutual
/-- Every action reachable in a subtree, through the child maps *or* the
selection pointers (`selected_action` / `next_state`). -/
def allActions : STree → List Action
  | .mk _ none children => allForest children
  | .mk _ (some (a, t)) children => a :: (allActions t ++ allForest children)

/-- `allActions` over the entries of a child map. -/
def allForest : List (Action × STree) → List Action
  | [] => []
  | (a, t) :: rest => a :: (allActions t ++ allForest rest)
end

mutual
/-- No node of the subtree has a selected action. -/
def selFree : STree → Bool
  | .mk _ none children => selFreeForest children
  | .mk _ (some _) _ => false

/-- `selFree` over the entries of a child map. -/
def selFreeForest : List (Action × STree) → Bool
  | [] => true
  | (_, t) :: rest => selFree t && selFreeForest rest
end

/-- `State.action_sequence`: replay the `selected_action` pointers from this
node to the first node with no selection. -/
def State.action_sequence : STree → List Action
  | .mk _ none _ => []
  | .mk _ (some (a, t)) _ => a :: State.action_sequence t

/-- Iterated `State.select`: select each action in turn at the then-current
state (`select` fails — `none` — when the action is not a registered branch;
the source raises), returning the updated root. -/
def selectSeq : STree → List Action → Option STree
  | t, [] => some t
  | .mk core _sel children, a :: rest =>
      match pyLookup a children with
      | none => none
      | some child =>
          match selectSeq child rest with
          | none => none
          | some child' =>
              some (.mk core (some (a, child')) (pyDictSet a child' children))

mutual
/-- `delete_children` (`src/utils/search/search_utils.py`): recursively clear
every descendant, then empty this node's child map and selection pointers.
In the value model the recursive clearing of the detached descendants is
unobservable from the returned root, which becomes a leaf. -/
def delete_children : STree → STree
  | .mk core _ children =>
      let _cleared := deleteForest children
      .mk core none []

/-- The recursive clearing pass of `delete_children` over a child map. -/
def deleteForest : List (Action × STree) → List STree
  | [] => []
  | (_, t) :: rest => delete_children t :: deleteForest rest
end

mutual
/-- Size of a tree (for induction). -/
def sizeT : STree → Nat
  | .mk _ none children => 1 + sizeF children
  | .mk _ (some (_, t)) children => 1 + sizeT t + sizeF children

/-- Size of a child map (for induction). -/
def sizeF : List (Action × STree) → Nat
  | [] => 0
  | (_, t) :: rest => 1 + sizeT t + sizeF rest
end

theorem sizeT_ge (core : StateCore) (sel : Option (Action × STree))
    (children : List (Action × STree)) :
    1 + sizeF children ≤ sizeT (.mk core sel children) := by
  cases sel with
  | none => simp [sizeT]
  | some p => cases p with
    | mk a t => simp [sizeT]

theorem sizeT_pos (t : STree) : 1 ≤ sizeT t := by
  cases t with
  | mk core sel children => calc
      1 ≤ 1 + sizeF children := by omega
      _ ≤ sizeT (.mk core sel children) := sizeT_ge core sel children

/-! ## C4: `State.remove` -/

/-- After `remove`, no action of the removed call is reachable through the
child maps of any descendant (induction on the forest size). -/
theorem removeForest_clean (cidx : Nat) :
    ∀ (n : Nat) (l : List (Action × STree)), sizeF l ≤ n →
      ∀ a ∈ forestActions (removeForest cidx l), a.call.idx ≠ cidx := by
  intro n
  induction n with
  | zero =>
      intro l hl
      cases l with
      | nil => intro a ha; simp [removeForest, forestActions] at ha
      | cons p rest =>
          exfalso
          rcases p with ⟨b, t⟩
          have := sizeT_pos t
          rw [sizeF] at hl
          omega
  | succ n ih =>
      intro l hl
      cases l with
      | nil => intro a ha; simp [removeForest, forestActions] at ha
      | cons p rest =>
          rcases p with ⟨b, t⟩
          rcases t with ⟨core, sel, ch⟩
          have hge := sizeT_ge core sel ch
          rw [sizeF] at hl
          intro a ha
          rw [removeForest] at ha
          by_cases hb : (b.call.idx == cidx) = true
          · rw [if_pos hb] at ha
            exact ih rest (by omega) a ha
          · rw [if_neg hb] at ha
            rw [forestActions] at ha
            rcases List.mem_cons.mp ha with h1 | h1
            · subst h1
              intro hcontra
              exact hb (beq_iff_eq.mpr hcontra)
            · rcases List.mem_append.mp h1 with h2 | h2
              · have heq : childActions (State.remove cidx (.mk core sel ch)) =
                    forestActions (removeForest cidx ch) := by
                  simp [State.remove, childActions]
                rw [heq] at h2
                exact ih ch (by omega) a h2
              · exact ih rest (by omega) a h2

/-- Child-map completeness of `remove` at the root. -/
theorem remove_clean (cidx : Nat) (t : STree) :
    ∀ a ∈ childActions (State.remove cidx t), a.call.idx ≠ cidx := by
  rcases t with ⟨core, sel, ch⟩
  have heq : childActions (State.remove cidx (.mk core sel ch)) =
      forestActions (removeForest cidx ch) := by
    simp [State.remove, childActions]
  rw [heq]
  exact removeForest_clean cidx (sizeF ch) ch le_rfl

/-- Idempotency of `remove`, jointly on trees and forests by size
induction. -/
theorem remove_idem_aux (cidx : Nat) :
    ∀ n : Nat,
      (∀ t : STree, sizeT t ≤ n →
        State.remove cidx (State.remove cidx t) = State.remove cidx t) ∧
      (∀ l : List (Action × STree), sizeF l ≤ n →
        removeForest cidx (removeForest cidx l) = removeForest cidx l) := by
  intro n
  induction n with
  | zero =>
      constructor
      · intro t ht
        have := sizeT_pos t
        omega
      · intro l hl
        cases l with
        | nil => rfl
        | cons p rest =>
            rcases p with ⟨b, t⟩
            have := sizeT_pos t
            rw [sizeF] at hl
            omega
  | succ n ih =>
      constructor
      · intro t ht
        rcases t with ⟨core, sel, ch⟩
        have hge := sizeT_ge core sel ch
        have hch : sizeF ch ≤ n := by
          have h2 : sizeT (STree.mk core sel ch) ≤ n + 1 := ht
          omega
        have hf := ih.2 ch hch
        simp only [State.remove]
        rw [hf]
        cases sel with
        | none => rfl
        | some p =>
            rcases p with ⟨a, t0⟩
            cases hlk : pyLookup a (removeForest cidx ch) with
            | none => simp [hlk]
            | some w => simp [hlk]
      · intro l hl
        cases l with
        | nil => rfl
        | cons p rest =>
            rcases p with ⟨b, t⟩
            have hpos := sizeT_pos t
            rw [sizeF] at hl
            rw [removeForest]
            by_cases hb : (b.call.idx == cidx) = true
            · rw [if_pos hb]
              exact ih.2 rest (by omega)
            · rw [if_neg hb]
              rw [removeForest, if_neg hb]
              rw [ih.1 t (by omega), ih.2 rest (by omega)]

/-- C4 (amended): for every state tree and every call, after `remove(call)`
no reachable action of that call remains anywhere in the child maps of the
subtree — including in already-explored descendants — and removing the same
call again is a no-op (idempotency).  The selection pointers, however, are
*not* cleared by `remove`: an already-selected action of the call stays
reachable through the `selected_action`/`next_state` chain
(see `c4_counterexample`). -/
theorem c4_remove_complete_idempotent (cidx : Nat) (t : STree) :
    (∀ a ∈ childActions (State.remove cidx t), a.call.idx ≠ cidx) ∧
    State.remove cidx (State.remove cidx t) = State.remove cidx t :=
  ⟨remove_clean cidx t, (remove_idem_aux cidx (sizeT t)).1 t le_rfl⟩

/-- Call for the C4 counterexample. -/
def c4CexCall : Call := ⟨0, 1, 0, ⟨0, 0, ⊤⟩, ⟨1, 0, ⊤⟩⟩

/-- Child state behind the selected pickup branch. -/
def c4CexLeaf : STree := .mk ⟨0, 0, [c4CexCall.delivery], some 1⟩ none []

/-- A tree whose root has selected the pickup of call 0. -/
def c4CexTree : STree :=
  .mk ⟨0, 0, [], some 0⟩ (some (c4CexCall.pickup, c4CexLeaf))
    [(c4CexCall.pickup, c4CexLeaf)]

/-- C4 counterexample: on a tree whose root has already *selected* a branch
of call 0, `remove(call 0)` deletes the branch from the child map but leaves
`selected_action`/`next_state` pointing at the detached subtree, so an action
of the call — indeed the whole removed subtree — remains reachable; the
claim's `zero reachable Action... no dangling entries remain reachable` is
false as stated. -/
theorem c4_counterexample :
    ¬ (∀ a ∈ allActions (State.remove 0 c4CexTree), a.call.idx ≠ 0) := by
  intro h
  apply h c4CexCall.pickup _ rfl
  show c4CexCall.pickup ∈ allActions (State.remove 0 c4CexTree)
  have : allActions (State.remove 0 c4CexTree) =
      c4CexCall.pickup :: (allActions c4CexLeaf ++ allForest []) := by
    rfl
  rw [this]
  exact List.mem_cons_self _ _

/-- Calls for the C4 witness. -/
def c4WitCallA : Call := ⟨0, 1, 0, ⟨0, 0, ⊤⟩, ⟨1, 0, ⊤⟩⟩

/-- Second witness call (index 1), whose branch survives the removal. -/
def c4WitCallB : Call := ⟨1, 1, 0, ⟨2, 0, ⊤⟩, ⟨3, 0, ⊤⟩⟩

/-- An unselected two-branch tree with a nested branch of call 0. -/
def c4WitTree : STree :=
  .mk ⟨0, 0, [], some 0⟩ none
    [(c4WitCallA.pickup, .mk ⟨0, 0, [c4WitCallA.delivery], some 1⟩ none []),
     (c4WitCallB.pickup,
        .mk ⟨2, 0, [c4WitCallB.delivery], some 1⟩ none
          [(c4WitCallA.pickup, .mk ⟨0, 0, [], some 2⟩ none [])])]

/-- C4 witness: removing call 0 from the concrete tree leaves exactly the
call 1 branches in the child maps — the amended theorem applied at the
surviving reachable actions, plus idempotency at this tree. -/
theorem c4_witness :
    childActions (State.remove 0 c4WitTree) = [c4WitCallB.pickup] ∧
    c4WitCallB.pickup.call.idx ≠ 0 ∧
    State.remove 0 (State.remove 0 c4WitTree) = State.remove 0 c4WitTree := by
  have hact : childActions (State.remove 0 c4WitTree) = [c4WitCallB.pickup] := by
    rfl
  refine ⟨hact, ?_, (c4_remove_complete_idempotent 0 c4WitTree).2⟩
  exact (c4_remove_complete_idempotent 0 c4WitTree).1 c4WitCallB.pickup
    (by rw [hact]; exact List.mem_cons_self _ _)

/-! ## C7: `select` then `action_sequence` -/

theorem selFree_sel_none {core : StateCore} {sel : Option (Action × STree)}
    {children : List (Action × STree)}
    (h : selFree (.mk core sel children) = true) : sel = none := by
  cases sel with
  | none => rfl
  | some p =>
      rw [selFree] at h
      cases h

theorem selFree_forest {core : StateCore} {sel : Option (Action × STree)}
    {children : List (Action × STree)}
    (h : selFree (.mk core sel children) = true) :
    selFreeForest children = true := by
  have hn := selFree_sel_none h
  subst hn
  rw [selFree] at h
  exact h

theorem selFree_of_lookup {a : Action} {child : STree} :
    ∀ {l : List (Action × STree)}, selFreeForest l = true →
      pyLookup a l = some child → selFree child = true := by
  intro l
  induction l with
  | nil => intro _ h; simp [pyLookup] at h
  | cons p rest ih =>
      rcases p with ⟨k, u⟩
      intro hf hl
      rw [selFreeForest, Bool.and_eq_true] at hf
      rw [pyLookup] at hl
      by_cases hk : pyActionEq a k = true
      · rw [if_pos hk] at hl
        cases hl
        exact hf.1
      · rw [if_neg hk] at hl
        exact ih hf.2 hl

/-- C7: selecting `a1, ..., an` in order from a selection-free root (each a
registered branch of the then-current state, which is exactly when the
iterated `select` succeeds) makes `action_sequence` at the root reproduce
`[a1, ..., an]` in order. -/
theorem c7_action_sequence_replays (as : List Action) :
    ∀ (t t' : STree), selFree t = true → selectSeq t as = some t' →
      State.action_sequence t' = as := by
  induction as with
  | nil =>
      intro t t' hfree h
      rw [selectSeq] at h
      injection h with h
      subst h
      rcases t with ⟨core, sel, ch⟩
      have := selFree_sel_none hfree
      subst this
      rw [State.action_sequence]
  | cons a rest ih =>
      intro t t' hfree h
      rcases t with ⟨core, sel, ch⟩
      rw [selectSeq] at h
      cases hlk : pyLookup a ch with
      | none => simp [hlk] at h
      | some child =>
          simp only [hlk] at h
          cases hss : selectSeq child rest with
          | none => simp [hss] at h
          | some child' =>
              simp only [hss, Option.some.injEq] at h
              subst h
              rw [State.action_sequence]
              rw [ih child child' (selFree_of_lookup (selFree_forest hfree) hlk) hss]

/-- Calls for the C7 witness. -/
def c7CallA : Call := ⟨0, 1, 0, ⟨1, 0, ⊤⟩, ⟨2, 0, ⊤⟩⟩

/-- Second C7 witness call. -/
def c7CallB : Call := ⟨1, 1, 0, ⟨3, 0, ⊤⟩, ⟨4, 0, ⊤⟩⟩

/-- Leaf of the C7 witness tree. -/
def c7Leaf : STree := .mk ⟨3, 2, [], none⟩ none []

/-- Middle node of the C7 witness tree. -/
def c7Mid : STree := .mk ⟨1, 1, [], none⟩ none [(c7CallB.pickup, c7Leaf)]

/-- Root of the C7 witness tree (selection-free, two levels of branches). -/
def c7Root : STree := .mk ⟨0, 0, [], none⟩ none [(c7CallA.pickup, c7Mid)]

/-- The middle node after the second `select`. -/
def c7MidSel : STree :=
  .mk ⟨1, 1, [], none⟩ (some (c7CallB.pickup, c7Leaf)) [(c7CallB.pickup, c7Leaf)]

/-- The root after both `select`s. -/
def c7RootSel : STree :=
  .mk ⟨0, 0, [], none⟩ (some (c7CallA.pickup, c7MidSel))
    [(c7CallA.pickup, c7MidSel)]

/-- C7 witness: the theorem applied to a concrete two-step selection. -/
theorem c7_witness :
    selFree c7Root = true ∧
    selectSeq c7Root [c7CallA.pickup, c7CallB.pickup] = some c7RootSel ∧
    State.action_sequence c7RootSel = [c7CallA.pickup, c7CallB.pickup] := by
  have h1 : selFree c7Root = true := by rfl
  have h2 : selectSeq c7Root [c7CallA.pickup, c7CallB.pickup] = some c7RootSel := by
    rfl
  exact ⟨h1, h2,
    c7_action_sequence_replays [c7CallA.pickup, c7CallB.pickup] c7Root c7RootSel h1 h2⟩

/-! ## Vehicle wrapper and C8: `reset` -/

/-- The mutable `Vehicle` wrapper: the immutable bundles, the tree root
(`initial_state`), the `current` pointer, and the route length. -/
structure Vehicle where
  static : VehicleStatic
  initial_state : STree
  current_state : STree
  route_length : Nat

/-- `Vehicle.reset`: clear the whole tree below the root
(`initial_state.delete_children()`, the routine of
`src/utils/search/search_utils.py`), rewind `current_state` to the root, and
zero the route length. -/
def Vehicle.reset (v : Vehicle) : Vehicle :=
  let root := delete_children v.initial_state
  ⟨v.static, root, root, 0⟩

theorem delete_children_eq (t : STree) :
    delete_children t = .mk t.core none [] := by
  rcases t with ⟨core, sel, ch⟩
  rfl

/-- C8: `reset` discards the entire subtree below the root (the root keeps
its state payload but loses every child), leaves no selected action or
next-state pointer anywhere in the resulting tree, rewinds `current` to the
root, and zeroes the route length. -/
theorem c8_reset_clears (v : Vehicle) :
    (Vehicle.reset v).current_state = (Vehicle.reset v).initial_state ∧
    (Vehicle.reset v).route_length = 0 ∧
    (Vehicle.reset v).initial_state.core = v.initial_state.core ∧
    (Vehicle.reset v).initial_state.children = [] ∧
    allActions (Vehicle.reset v).initial_state = [] ∧
    selFree (Vehicle.reset v).initial_state = true := by
  refine ⟨rfl, rfl, ?_, ?_, ?_, ?_⟩ <;>
    simp [Vehicle.reset, delete_children_eq, STree.core, STree.children,
      allActions, allForest, selFree, selFreeForest]

/-! ## C5: `Vehicle.cost`

`Vehicle.action_sequence` returns `self.initial_state.action_sequence()`;
`State.action_sequence` is a property (a cross-revision slip in the source),
so the value is the property's replayed list.  `Vehicle.cost` walks that list
from the root's node with a running `(total, current_node)` accumulator. -/

/-- `Vehicle.action_sequence`. -/
def Vehicle.action_sequence (v : Vehicle) : List Action :=
  State.action_sequence v.initial_state

/-- The loop body of `Vehicle.cost`: add the travel cost from the previous
node, the action's service cost, and subtract half the call's void cost;
carry the action's node forward. -/
def costStep (costs : VehicleCosts) (acc : ℚ × Nat) (action : Action) : ℚ × Nat :=
  (acc.1 + costs.travel_costs acc.2 action.node
     + costs.service_costs action.call_idx action.action_idx
     - action.call.void_cost / 2,
   action.node)

/-- `Vehicle.cost`: total cost of the committed actions, walked from the
root's node. -/
def Vehicle.cost (v : Vehicle) : ℚ :=
  ((Vehicle.action_sequence v).foldl (costStep v.static.costs)
    (0, v.initial_state.core.node)).1

/-- The claim's closed form of the route cost: for each action in sequence,
the travel cost between the consecutive nodes plus its service cost minus
half its call's void cost. -/
def cost_spec (costs : VehicleCosts) : Nat → List Action → ℚ
  | _, [] => 0
  | prev, a :: rest =>
      costs.travel_costs prev a.node
        + costs.service_costs a.call_idx a.action_idx
        - a.call.void_cost / 2
        + cost_spec costs a.node rest

/-- The travel-plus-service part of the route cost (no void rebates). -/
def travelServiceSum (costs : VehicleCosts) : Nat → List Action → ℚ
  | _, [] => 0
  | prev, a :: rest =>
      costs.travel_costs prev a.node
        + costs.service_costs a.call_idx a.action_idx
        + travelServiceSum costs a.node rest

/-- The sum of the half-void-cost rebates of a committed action list. -/
def halfVoidSum (seq : List Action) : ℚ :=
  (seq.map (fun a => a.call.void_cost / 2)).sum

theorem foldl_costStep (costs : VehicleCosts) :
    ∀ (seq : List Action) (acc : ℚ) (prev : Nat),
      (seq.foldl (costStep costs) (acc, prev)).1 = acc + cost_spec costs prev seq := by
  intro seq
  induction seq with
  | nil => intro acc prev; simp [cost_spec]
  | cons a rest ih =>
      intro acc prev
      rw [List.foldl_cons, cost_spec]
      rw [costStep]
      rw [ih]
      ring

theorem cost_spec_decomp (costs : VehicleCosts) :
    ∀ (prev : Nat) (seq : List Action),
      cost_spec costs prev seq = travelServiceSum costs prev seq - halfVoidSum seq := by
  intro prev seq
  induction seq generalizing prev with
  | nil => simp [cost_spec, travelServiceSum, halfVoidSum]
  | cons a rest ih =>
      rw [cost_spec, travelServiceSum, ih a.node]
      unfold halfVoidSum
      rw [List.map_cons, List.sum_cons]
      ring

/-- C5: the `cost` property equals the sum, over the committed action
sequence walked from the root's node, of the travel cost between consecutive
action nodes plus each action's service cost minus half the void cost of the
action's call; and a vehicle with no committed actions has cost 0. -/
theorem c5_cost_walk (v : Vehicle) :
    Vehicle.cost v =
      cost_spec v.static.costs v.initial_state.core.node (Vehicle.action_sequence v) ∧
    (Vehicle.action_sequence v = [] → Vehicle.cost v = 0) := by
  have h := foldl_costStep v.static.costs (Vehicle.action_sequence v) 0
    v.initial_state.core.node
  constructor
  · rw [Vehicle.cost, h, zero_add]
  · intro he
    rw [Vehicle.cost, he]
    rfl

/-! ### The end-to-end example of spec §8 (used as C5/C6 witness data) -/

/-- The single call of the end-to-end example: size 5, void cost 100. -/
def e2eCall : Call :=
  ⟨0, 5, 100, ⟨0, 0, ((0 : ℚ) : WithTop ℚ)⟩, ⟨1, 0, ((100 : ℚ) : WithTop ℚ)⟩⟩

/-- The end-to-end vehicle bundles: capacity 10, travel cost 2 and travel
time 5 on the leg `0 → 1`, zero service matrices. -/
def e2eStatic : VehicleStatic :=
  ⟨⟨0, 10, [e2eCall]⟩,
   ⟨fun i j => if i = 0 ∧ j = 1 then 2 else 0, fun _ _ => 0⟩,
   ⟨fun i j => if i = 0 ∧ j = 1 then 5 else 0, fun _ _ => 0⟩⟩

/-- Final state of the end-to-end route. -/
def e2eLeaf : STree := .mk ⟨1, 10, [], some 0⟩ none []

/-- Middle state (after the pickup) of the end-to-end route. -/
def e2eMid : STree :=
  .mk ⟨0, 0, [e2eCall.delivery], some 5⟩ (some (e2eCall.delivery, e2eLeaf))
    [(e2eCall.delivery, e2eLeaf)]

/-- Root of the end-to-end route, with both actions selected. -/
def e2eRoot : STree :=
  .mk ⟨0, 0, [], none⟩ (some (e2eCall.pickup, e2eMid)) [(e2eCall.pickup, e2eMid)]

/-- The end-to-end vehicle after construction. -/
def e2eVehicle : Vehicle := ⟨e2eStatic, e2eRoot, e2eLeaf, 2⟩

/-- C5 witness: on the end-to-end example the committed sequence is
`[pickup, delivery]` and the walked cost evaluates, through the theorem's
closed form, to `0 + 0 − 50 + 2 + 0 − 50 = −98`. -/
theorem c5_witness :
    Vehicle.action_sequence e2eVehicle = [e2eCall.pickup, e2eCall.delivery] ∧
    Vehicle.cost e2eVehicle =
      cost_spec e2eStatic.costs 0 [e2eCall.pickup, e2eCall.delivery] ∧
    Vehicle.cost e2eVehicle = -98 := by
  have hseq : Vehicle.action_sequence e2eVehicle =
      [e2eCall.pickup, e2eCall.delivery] := rfl
  have h := (c5_cost_walk e2eVehicle).1
  rw [hseq] at h
  refine ⟨hseq, h, ?_⟩
  rw [h]
  norm_num [cost_spec, e2eVehicle, e2eStatic, e2eRoot, e2eCall, STree.core,
    Call.pickup, Call.delivery, Action.node, Action.window, Action.call_idx,
    Action.action_idx, Role.idx]

/-! ## C6: total solution cost (`src/utils/cost/cost_utils.py`) -/

/-- `get_cost(vehicles, calls)`: the void cost of every call (as if unserved)
plus each vehicle's route cost. -/
def get_cost (vehicles : List Vehicle) (calls : List Call) : ℚ :=
  (calls.map Call.void_cost).sum + (vehicles.map Vehicle.cost).sum

theorem sum_map_sub (l : List Vehicle) (f g : Vehicle → ℚ) :
    (l.map (fun v => f v - g v)).sum = (l.map f).sum - (l.map g).sum := by
  induction l with
  | nil => simp
  | cons v rest ih =>
      simp only [List.map_cons, List.sum_cons, ih]
      ring

theorem halfVoidSum_flatMap (vs : List Vehicle) :
    (vs.map (fun v => halfVoidSum (Vehicle.action_sequence v))).sum =
      halfVoidSum (vs.flatMap Vehicle.action_sequence) := by
  induction vs with
  | nil => simp [halfVoidSum]
  | cons v rest ih =>
      rw [List.flatMap_cons]
      unfold halfVoidSum at ih ⊢
      rw [List.map_cons, List.sum_cons, List.map_append, List.sum_append, ih]

theorem halfVoidSum_eq (seq : List Action) :
    halfVoidSum seq = ((seq.map (fun a => a.call.void_cost)).map (fun x => x / 2)).sum := by
  unfold halfVoidSum
  rw [List.map_map]
  rfl

theorem sum_halves (l : List ℚ) : (l.map (fun x => x / 2)).sum = l.sum / 2 := by
  induction l with
  | nil => simp
  | cons x rest ih =>
      rw [List.map_cons, List.sum_cons, List.sum_cons, ih]
      ring

/-- C6: the total solution cost is the sum of all calls' void costs plus the
vehicles' route costs; when the committed actions consist of exactly one
pickup and one delivery per served call (and nothing else), the total equals
the travel-plus-service cost of the routes plus the full void cost of each
unserved call: the two half-void rebates exactly cancel a served call's
penalty. -/
theorem c6_total_cost (vehicles : List Vehicle) (calls served unserved : List Call)
    (hsplit : calls.Perm (served ++ unserved))
    (hserved :
      ((vehicles.flatMap Vehicle.action_sequence).map (fun a => a.call.void_cost)).Perm
        ((served ++ served).map Call.void_cost)) :
    get_cost vehicles calls =
      (calls.map Call.void_cost).sum + (vehicles.map Vehicle.cost).sum ∧
    get_cost vehicles calls =
      (vehicles.map (fun v =>
        travelServiceSum v.static.costs v.initial_state.core.node
          (Vehicle.action_sequence v))).sum
        + (unserved.map Call.void_cost).sum := by
  refine ⟨rfl, ?_⟩
  have hcost : ∀ v : Vehicle, Vehicle.cost v =
      travelServiceSum v.static.costs v.initial_state.core.node
        (Vehicle.action_sequence v)
      - halfVoidSum (Vehicle.action_sequence v) := by
    intro v
    rw [Vehicle.cost, foldl_costStep, zero_add, cost_spec_decomp]
  have h1 : (vehicles.map Vehicle.cost).sum =
      (vehicles.map (fun v =>
        travelServiceSum v.static.costs v.initial_state.core.node
          (Vehicle.action_sequence v))).sum
      - (vehicles.map (fun v => halfVoidSum (Vehicle.action_sequence v))).sum := by
    rw [← sum_map_sub]
    congr 1
    exact List.map_congr_left (fun v _ => hcost v)
  have h2 : (vehicles.map (fun v => halfVoidSum (Vehicle.action_sequence v))).sum =
      (served.map Call.void_cost).sum := by
    rw [halfVoidSum_flatMap, halfVoidSum_eq]
    have hp := hserved.map (fun x => x / 2)
    rw [hp.sum_eq, List.map_map]
    have : ((served ++ served).map (fun x => (x.void_cost) / 2)).sum
        = ((served ++ served).map Call.void_cost).sum / 2 := by
      rw [← sum_halves, List.map_map]
      rfl
    rw [show ((fun x => x / 2) ∘ Call.void_cost) = (fun c : Call => c.void_cost / 2) from rfl]
    rw [this]
    rw [List.map_append, List.sum_append]
    ring
  have h3 : (calls.map Call.void_cost).sum =
      (served.map Call.void_cost).sum + (unserved.map Call.void_cost).sum := by
    rw [(hsplit.map Call.void_cost).sum_eq, List.map_append, List.sum_append]
  rw [get_cost, h1, h2, h3]
  ring

/-- C6 witness: the end-to-end example — one vehicle serving the single call.
The hypotheses hold by computation and the total cost evaluates to 2 (the
travel cost): the void penalty of the served call nets to zero. -/
theorem c6_witness :
    get_cost [e2eVehicle] [e2eCall] =
      (([e2eVehicle].map (fun v =>
        travelServiceSum v.static.costs v.initial_state.core.node
          (Vehicle.action_sequence v))).sum
        + (([] : List Call).map Call.void_cost).sum) ∧
    get_cost [e2eVehicle] [e2eCall] = 2 := by
  have hsplit : ([e2eCall] : List Call).Perm ([e2eCall] ++ []) := by simp
  have hserved :
      (([e2eVehicle].flatMap Vehicle.action_sequence).map
          (fun a => a.call.void_cost)).Perm
        (([e2eCall] ++ [e2eCall]).map Call.void_cost) := by
    have hl : ([e2eVehicle].flatMap Vehicle.action_sequence).map
        (fun a => a.call.void_cost) = [(100 : ℚ), 100] := rfl
    have hr : ([e2eCall] ++ [e2eCall]).map Call.void_cost = [(100 : ℚ), 100] := rfl
    rw [hl, hr]
  have h := (c6_total_cost [e2eVehicle] [e2eCall] [e2eCall] [] hsplit hserved).2
  refine ⟨h, ?_⟩
  rw [h]
  have hseq : Vehicle.action_sequence e2eVehicle =
      [e2eCall.pickup, e2eCall.delivery] := rfl
  norm_num [hseq, travelServiceSum, e2eVehicle, e2eStatic, e2eCall,
    Call.pickup, Call.delivery, Action.node, Action.window, Action.call_idx,
    Action.action_idx, Role.idx, STree.core, e2eRoot]

/-! ## C9: the cost-greedy selection policy
(`src/solvers/selection_solvers/greedy_solvers.py`) -/

/-- Modelled from the spec: `Vehicle.get_action_cost` is invoked by
`CostGreedySolver.select_vehicle_action` but defined nowhere in the source;
spec §4.5 defines the cost-greedy marginal cost as
`travel_cost(current.node, action.node) + service_cost(call, role)
− void_cost/2` (the superseded `GreedySolver` revision inlines the same
formula). -/
def Vehicle.get_action_cost (v : Vehicle) (a : Action) : ℚ :=
  v.static.costs.travel_costs v.current_state.core.node a.node
    + v.static.costs.service_costs a.call_idx a.action_idx
    - a.call.void_cost / 2

/-- The registered branches of a vehicle's current state (the keys of
`current_state.next_states`, in insertion order). -/
def Vehicle.branch_actions (v : Vehicle) : List Action :=
  v.current_state.children.map Prod.fst

/-- `CostGreedySolver.select_vehicle_action`: scan every branch of every
active vehicle, tracking the strictly smallest `get_action_cost` seen so far
(initially `+inf`, modelled by the empty accumulator), and return the first
minimizing `(vehicle, action)` pair. -/
def select_vehicle_action (active : List Vehicle) : Option (Vehicle × Action) :=
  (active.foldl (fun acc v =>
      (Vehicle.branch_actions v).foldl (fun acc a =>
        match acc with
        | none => some (Vehicle.get_action_cost v a, v, a)
        | some (best, _) =>
            if Vehicle.get_action_cost v a < best then
              some (Vehicle.get_action_cost v a, v, a)
            else acc) acc) none).map (fun x => x.2)

/-- The `(vehicle, action)` pairs scanned by the policy, in scan order. -/
def allPairs (active : List Vehicle) : List (Vehicle × Action) :=
  active.flatMap (fun v => (Vehicle.branch_actions v).map (fun a => (v, a)))

/-- The marginal cost of a scanned pair. -/
def pairCost (p : Vehicle × Action) : ℚ := Vehicle.get_action_cost p.1 p.2

/-- The scan of `select_vehicle_action`, as a single fold over the pair
list. -/
def greedyFold (acc : Option (ℚ × Vehicle × Action))
    (l : List (Vehicle × Action)) : Option (ℚ × Vehicle × Action) :=
  l.foldl (fun acc p =>
    match acc with
    | none => some (pairCost p, p)
    | some (best, _) =>
        if pairCost p < best then some (pairCost p, p) else acc) acc

theorem select_eq_greedyFold (active : List Vehicle) :
    select_vehicle_action active =
      (greedyFold none (allPairs active)).map (fun x => x.2) := by
  unfold select_vehicle_action
  congr 1
  have hinner : ∀ (v : Vehicle) (acts : List Action)
      (acc : Option (ℚ × Vehicle × Action)),
      acts.foldl (fun acc a =>
        match acc with
        | none => some (Vehicle.get_action_cost v a, v, a)
        | some (best, _) =>
            if Vehicle.get_action_cost v a < best then
              some (Vehicle.get_action_cost v a, v, a)
            else acc) acc
      = greedyFold acc (acts.map (fun a => (v, a))) := by
    intro v acts
    induction acts with
    | nil => intro acc; rfl
    | cons a rest ih =>
        intro acc
        rw [List.foldl_cons, List.map_cons]
        unfold greedyFold
        rw [List.foldl_cons]
        exact ih _
  have houter : ∀ (vs : List Vehicle) (acc : Option (ℚ × Vehicle × Action)),
      vs.foldl (fun acc v =>
        (Vehicle.branch_actions v).foldl (fun acc a =>
          match acc with
          | none => some (Vehicle.get_action_cost v a, v, a)
          | some (best, _) =>
              if Vehicle.get_action_cost v a < best then
                some (Vehicle.get_action_cost v a, v, a)
              else acc) acc) acc
      = greedyFold acc (allPairs vs) := by
    intro vs
    induction vs with
    | nil => intro acc; rfl
    | cons v rest ih =>
        intro acc
        rw [List.foldl_cons, ih, hinner]
        unfold allPairs greedyFold
        rw [List.flatMap_cons, List.foldl_append]
  exact houter active none

theorem greedyFold_some_spec :
    ∀ (l : List (Vehicle × Action)) (c0 : ℚ) (p0 : Vehicle × Action),
      ∃ c p, greedyFold (some (c0, p0)) l = some (c, p) ∧
        ((c = c0 ∧ p = p0) ∨ (p ∈ l ∧ c = pairCost p)) ∧
        c ≤ c0 ∧ ∀ q ∈ l, c ≤ pairCost q := by
  intro l
  induction l with
  | nil =>
      intro c0 p0
      exact ⟨c0, p0, rfl, Or.inl ⟨rfl, rfl⟩, le_rfl, by simp⟩
  | cons x xs ih =>
      intro c0 p0
      unfold greedyFold
      rw [List.foldl_cons]
      by_cases hx : pairCost x < c0
      · simp only [hx, if_true]
        obtain ⟨c, p, heq, hmem, hle, hall⟩ := ih (pairCost x) x
        refine ⟨c, p, heq, ?_, ?_, ?_⟩
        · rcases hmem with ⟨hc, hp⟩ | ⟨hp, hc⟩
          · exact Or.inr ⟨by rw [hp]; exact List.mem_cons_self _ _, by rw [hc, hp]⟩
          · exact Or.inr ⟨List.mem_cons_of_mem _ hp, hc⟩
        · exact le_of_lt (lt_of_le_of_lt hle hx)
        · intro q hq
          rcases List.mem_cons.mp hq with h1 | h1
          · rw [h1]; exact hle
          · exact hall q h1
      · simp only [hx, if_false]
        obtain ⟨c, p, heq, hmem, hle, hall⟩ := ih c0 p0
        refine ⟨c, p, heq, ?_, hle, ?_⟩
        · rcases hmem with ⟨hc, hp⟩ | ⟨hp, hc⟩
          · exact Or.inl ⟨hc, hp⟩
          · exact Or.inr ⟨List.mem_cons_of_mem _ hp, hc⟩
        · intro q hq
          rcases List.mem_cons.mp hq with h1 | h1
          · rw [h1]
            exact le_trans hle (not_lt.mp hx)
          · exact hall q h1

theorem greedyFold_none_spec (l : List (Vehicle × Action)) (hne : l ≠ []) :
    ∃ c p, greedyFold none l = some (c, p) ∧ p ∈ l ∧ c = pairCost p ∧
      ∀ q ∈ l, c ≤ pairCost q := by
  cases l with
  | nil => exact absurd rfl hne
  | cons x xs =>
      unfold greedyFold
      rw [List.foldl_cons]
      obtain ⟨c, p, heq, hmem, hle, hall⟩ := greedyFold_some_spec xs (pairCost x) x
      refine ⟨c, p, heq, ?_, ?_, ?_⟩
      · rcases hmem with ⟨_, hp⟩ | ⟨hp, _⟩
        · rw [hp]; exact List.mem_cons_self _ _
        · exact List.mem_cons_of_mem _ hp
      · rcases hmem with ⟨hc, hp⟩ | ⟨_, hc⟩
        · rw [hc, hp]
        · exact hc
      · intro q hq
        rcases List.mem_cons.mp hq with h1 | h1
        · rw [h1]; exact hle
        · exact hall q h1

theorem mem_allPairs {active : List Vehicle} {p : Vehicle × Action} :
    p ∈ allPairs active ↔ p.1 ∈ active ∧ p.2 ∈ Vehicle.branch_actions p.1 := by
  unfold allPairs
  rw [List.mem_flatMap]
  constructor
  · rintro ⟨v, hv, hp⟩
    rw [List.mem_map] at hp
    obtain ⟨a, ha, hpa⟩ := hp
    rcases p with ⟨p1, p2⟩
    cases hpa
    exact ⟨hv, ha⟩
  · rintro ⟨h1, h2⟩
    exact ⟨p.1, h1, List.mem_map.mpr ⟨p.2, h2, rfl⟩⟩

/-- C9: for every non-empty list of active vehicles, each with at least one
registered branch, the cost-greedy policy returns a pair `(vehicle, action)`
with `action` among that vehicle's current branches, minimizing
`travel_cost(current.node, action.node) + service_cost(call, role)
− void_cost/2` over all branches of all active vehicles. -/
theorem c9_cost_greedy (active : List Vehicle) (hne : active ≠ [])
    (hbr : ∀ v ∈ active, Vehicle.branch_actions v ≠ []) :
    ∃ v a, select_vehicle_action active = some (v, a) ∧
      v ∈ active ∧ a ∈ Vehicle.branch_actions v ∧
      ∀ w ∈ active, ∀ b ∈ Vehicle.branch_actions w,
        Vehicle.get_action_cost v a ≤ Vehicle.get_action_cost w b := by
  have hpne : allPairs active ≠ [] := by
    cases active with
    | nil => exact absurd rfl hne
    | cons v vs =>
        unfold allPairs
        rw [List.flatMap_cons]
        intro h
        rcases List.append_eq_nil.mp h with ⟨h1, _⟩
        exact hbr v (List.mem_cons_self _ _) (List.map_eq_nil_iff.mp h1)
  obtain ⟨c, p, heq, hmem, hcost, hall⟩ := greedyFold_none_spec (allPairs active) hpne
  obtain ⟨hv, ha⟩ := mem_allPairs.mp hmem
  refine ⟨p.1, p.2, ?_, hv, ha, ?_⟩
  · rw [select_eq_greedyFold, heq]
    rfl
  · intro w hw b hb
    have hq : (w, b) ∈ allPairs active := mem_allPairs.mpr ⟨hw, hb⟩
    have := hall (w, b) hq
    rw [hcost] at this
    exact this

/-- Call for the C9 witness: void cost 2. -/
def c9CallA : Call := ⟨0, 1, 2, ⟨1, 0, ⊤⟩, ⟨2, 0, ⊤⟩⟩

/-- Second C9 witness call: void cost 4. -/
def c9CallB : Call := ⟨1, 1, 4, ⟨3, 0, ⊤⟩, ⟨4, 0, ⊤⟩⟩

/-- First C9 witness vehicle: travel cost 5 everywhere, one branch
(marginal cost `5 + 0 − 1 = 4`). -/
def c9VehA : Vehicle :=
  ⟨⟨⟨0, 10, [c9CallA]⟩, ⟨fun _ _ => 5, fun _ _ => 0⟩, ⟨fun _ _ => 0, fun _ _ => 0⟩⟩,
   .mk ⟨0, 0, [], some 0⟩ none [(c9CallA.pickup, .mk ⟨1, 0, [c9CallA.delivery], some 1⟩ none [])],
   .mk ⟨0, 0, [], some 0⟩ none [(c9CallA.pickup, .mk ⟨1, 0, [c9CallA.delivery], some 1⟩ none [])],
   0⟩

/-- Second C9 witness vehicle: travel cost 1 everywhere, one branch
(marginal cost `1 + 0 − 2 = −1`, the global minimum). -/
def c9VehB : Vehicle :=
  ⟨⟨⟨1, 10, [c9CallB]⟩, ⟨fun _ _ => 1, fun _ _ => 0⟩, ⟨fun _ _ => 0, fun _ _ => 0⟩⟩,
   .mk ⟨0, 0, [], some 0⟩ none [(c9CallB.pickup, .mk ⟨3, 0, [c9CallB.delivery], some 1⟩ none [])],
   .mk ⟨0, 0, [], some 0⟩ none [(c9CallB.pickup, .mk ⟨3, 0, [c9CallB.delivery], some 1⟩ none [])],
   0⟩

/-- C9 witness: the theorem applied to two concrete one-branch vehicles, and
the concrete evaluation — vehicle B's branch has the smaller marginal cost
and is selected. -/
theorem c9_witness :
    select_vehicle_action [c9VehA, c9VehB] = some (c9VehB, c9CallB.pickup) ∧
    (∃ v a, select_vehicle_action [c9VehA, c9VehB] = some (v, a) ∧
      v ∈ [c9VehA, c9VehB] ∧ a ∈ Vehicle.branch_actions v ∧
      ∀ w ∈ [c9VehA, c9VehB], ∀ b ∈ Vehicle.branch_actions w,
        Vehicle.get_action_cost v a ≤ Vehicle.get_action_cost w b) := by
  constructor
  · norm_num [select_vehicle_action, Vehicle.branch_actions,
      Vehicle.get_action_cost, c9VehA, c9VehB, c9CallA, c9CallB, STree.core,
      STree.children, Call.pickup, Call.delivery, Action.node, Action.window,
      Action.call_idx, Action.action_idx, Role.idx]
  · exact c9_cost_greedy [c9VehA, c9VehB] (by simp)
      (by
        intro v hv
        rcases List.mem_cons.mp hv with h | h
        · subst h
          simp [Vehicle.branch_actions, c9VehA, STree.children]
        · rw [List.mem_singleton] at h
          subst h
          simp [Vehicle.branch_actions, c9VehB, STree.children])

/-! ## C10: `Action.__eq__` and `link_call` (`src/models/actions.py`)

A Python `Action` object carries the mutable caches `_call`, `_hash` and
`_load_delta`, all `None` until `link_call` runs.  `__eq__` compares only the
cached hashes and reads the fields directly, so it never raises.  `link_call`
sets `_hash = hash((call.idx << 1) | action_idx)`; CPython's `hash` is the
identity on these machine-range nonnegative integers, and since the low bit
is free, `(idx << 1) | action_idx = 2 * idx + action_idx`, which is the form
used below. -/

/-- The fields of a Python `Action` object (before or after linking). -/
structure ActionObj where
  action_idx : Nat
  node_idx : Nat
  earliest_time : ℚ
  latest_time : WithTop ℚ
  callRef : Option Call      -- `_call` (weak reference)
  cachedHash : Option Nat    -- `_hash`
  loadDelta : Option ℚ       -- `_load_delta`
deriving DecidableEq, Repr

/-- `Action.__init__`: the role must be 0 (Pickup) or 1 (Delivery) and the
window must satisfy `earliest ≤ latest`, else a `ValueError`; the caches
start unset. -/
def Action.init (action_idx node_idx : Nat) (earliest : ℚ)
    (latest : WithTop ℚ) : Option ActionObj :=
  if action_idx = 0 ∨ action_idx = 1 then
    if tGT earliest latest then none
    else some ⟨action_idx, node_idx, earliest, latest, none, none, none⟩
  else none

/-- `Action.link_call`: set the call reference and both caches. -/
def ActionObj.link_call (a : ActionObj) (c : Call) : ActionObj :=
  { a with callRef := some c,
           cachedHash := some (2 * c.idx + a.action_idx),
           loadDelta := some (if a.action_idx = 0 then c.size else -c.size) }

/-- `Action.__eq__`: compare only the cached hashes. -/
def ActionObj.eq (a b : ActionObj) : Bool := a.cachedHash == b.cachedHash

theorem Action.init_some {i n : Nat} {e : ℚ} {l : WithTop ℚ} {a : ActionObj}
    (h : Action.init i n e l = some a) :
    (i = 0 ∨ i = 1) ∧ a = ⟨i, n, e, l, none, none, none⟩ := by
  unfold Action.init at h
  by_cases h1 : i = 0 ∨ i = 1
  · rw [if_pos h1] at h
    by_cases h2 : tGT e l = true
    · rw [if_pos h2] at h
      cases h
    · rw [if_neg h2] at h
      injection h with h
      exact ⟨h1, h.symm⟩
  · rw [if_neg h1] at h
    cases h

/-- C10: two `Action` objects that have not been linked to a `Call` compare
equal under `__eq__` — whatever their roles, nodes or windows — and the
comparison raises no error (it reads only the unset hash caches); after both
are linked, they compare equal iff they reference the same
`(call index, role)` pair. -/
theorem c10_action_equality :
    (∀ (i1 n1 : Nat) (e1 : ℚ) (l1 : WithTop ℚ) (i2 n2 : Nat) (e2 : ℚ)
        (l2 : WithTop ℚ) (a b : ActionObj),
      Action.init i1 n1 e1 l1 = some a → Action.init i2 n2 e2 l2 = some b →
      ActionObj.eq a b = true) ∧
    (∀ (i1 n1 : Nat) (e1 : ℚ) (l1 : WithTop ℚ) (i2 n2 : Nat) (e2 : ℚ)
        (l2 : WithTop ℚ) (a b : ActionObj) (c d : Call),
      Action.init i1 n1 e1 l1 = some a → Action.init i2 n2 e2 l2 = some b →
      (ActionObj.eq (a.link_call c) (b.link_call d) = true ↔
        (c.idx = d.idx ∧ a.action_idx = b.action_idx))) := by
  constructor
  · intro i1 n1 e1 l1 i2 n2 e2 l2 a b ha hb
    rw [(Action.init_some ha).2, (Action.init_some hb).2]
    rfl
  · intro i1 n1 e1 l1 i2 n2 e2 l2 a b c d ha hb
    obtain ⟨hi1, ha2⟩ := Action.init_some ha
    obtain ⟨hi2, hb2⟩ := Action.init_some hb
    subst ha2
    subst hb2
    show (some (2 * c.idx + i1) == some (2 * d.idx + i2)) = true ↔ _
    rw [beq_iff_eq, Option.some.injEq]
    constructor
    · intro h
      constructor
      · omega
      · show i1 = i2
        omega
    · rintro ⟨h1, h2⟩
      have h2' : i1 = i2 := h2
      rw [h1, h2']

/-- Witness calls for C10: same index, different data; and a distinct-index
call. -/
def c10CallX : Call := ⟨3, 1, 0, ⟨0, 0, ⊤⟩, ⟨1, 0, ⊤⟩⟩

/-- Second C10 witness call, with a different index. -/
def c10CallY : Call := ⟨4, 2, 0, ⟨2, 0, ⊤⟩, ⟨3, 0, ⊤⟩⟩

/-- Unlinked C10 witness object: a pickup at node 7. -/
def c10ObjA : ActionObj := ⟨0, 7, 0, ⊤, none, none, none⟩

/-- Unlinked C10 witness object: a delivery at node 9 with a bounded
window. -/
def c10ObjB : ActionObj := ⟨1, 9, 1, ((5 : ℚ) : WithTop ℚ), none, none, none⟩

/-- C10 witness: the two freshly constructed objects compare equal despite
different roles, nodes and windows; after linking to calls with different
indices (and roles) they no longer compare equal, while linking both to the
same call with the same role compares equal. -/
theorem c10_witness :
    Action.init 0 7 0 ⊤ = some c10ObjA ∧
    Action.init 1 9 1 ((5 : ℚ) : WithTop ℚ) = some c10ObjB ∧
    ActionObj.eq c10ObjA c10ObjB = true ∧
    ActionObj.eq (c10ObjA.link_call c10CallX) (c10ObjB.link_call c10CallY) = false ∧
    ActionObj.eq (c10ObjA.link_call c10CallX) (c10ObjA.link_call c10CallX) = true := by
  have ha : Action.init 0 7 0 ⊤ = some c10ObjA := by
    simp [Action.init, c10ObjA, tGT]
  have hb : Action.init 1 9 1 ((5 : ℚ) : WithTop ℚ) = some c10ObjB := by
    norm_num [Action.init, c10ObjB, tGT]
  refine ⟨ha, hb, c10_action_equality.1 0 7 0 ⊤ 1 9 1 _ _ _ ha hb, ?_, ?_⟩
  · have hiff := c10_action_equality.2 0 7 0 ⊤ 1 9 1 ((5 : ℚ) : WithTop ℚ)
      c10ObjA c10ObjB c10CallX c10CallY ha hb
    cases heq : ActionObj.eq (c10ObjA.link_call c10CallX) (c10ObjB.link_call c10CallY) with
    | false => rfl
    | true =>
        obtain ⟨_, hrole⟩ := hiff.mp heq
        exact absurd hrole (by decide)
  · exact (c10_action_equality.2 0 7 0 ⊤ 0 7 0 ⊤ c10ObjA c10ObjA c10CallX
      c10CallX ha ha).mpr ⟨rfl, rfl⟩

end MVRPTW
